import Mathlib

/-!
Verification of the retworkx analytic core: Brandes betweenness centrality
(`src/centrality.rs`) and the BFS connectivity primitive
(`retworkx-core/src/connectivity/conn_components.rs`).

The graph capability interface is modelled concretely: a node-index bound,
the list of live node indices (`node_identifiers`, in enumeration order),
an edge list and a directedness flag.  `neighbors` reproduces the petgraph
semantics of `IntoNeighbors::neighbors`: for a directed graph only the
targets of outgoing edges, for an undirected graph all incident endpoints.
Floating-point scores are modelled by exact rationals, as the spec treats
additions as exact for the sequential/parallel agreement property.
-/

set_option maxHeartbeats 1000000

/-- Concrete model of the graph capability interface consumed by both
source files: `nodeBound` is `node_bound()`, `nodes` is the stable
enumeration `node_identifiers()` (live indices, possibly with holes below
the bound), `edges` the edge list and `directed` the `is_directed()` flag. -/
structure Graph where
  nodeBound : Nat
  nodes : List Nat
  edges : List (Nat × Nat)
  directed : Bool

/-- Petgraph `neighbors` semantics: outgoing targets for a directed graph;
for an undirected graph every endpoint of an incident edge. -/
def neighbors (g : Graph) (v : Nat) : List Nat :=
  if g.directed then
    (g.edges.filter (fun e => e.1 = v)).map Prod.snd
  else
    (g.edges.filter (fun e => e.1 = v)).map Prod.snd
      ++ (g.edges.filter (fun e => e.2 = v)).map Prod.fst

/-- Well-formedness guaranteed by the graph container: node identifiers are
distinct, below the node bound, and every edge endpoint is a live node. -/
def Graph.WF (g : Graph) : Prop :=
  g.nodes.Nodup ∧ (∀ x ∈ g.nodes, x < g.nodeBound) ∧
    (∀ e ∈ g.edges, e.1 ∈ g.nodes ∧ e.2 ∈ g.nodes)

instance (g : Graph) : Decidable g.WF := by
  unfold Graph.WF; infer_instance

theorem mem_nodes_of_mem_neighbors {g : Graph} (hg : g.WF) {v w : Nat}
    (hw : w ∈ neighbors g v) : w ∈ g.nodes := by
  rcases hg with ⟨-, -, he⟩
  unfold neighbors at hw
  cases hd : g.directed with
  | true =>
    rw [hd] at hw
    simp only [if_true, List.mem_map, List.mem_filter] at hw
    obtain ⟨e, ⟨hmem, -⟩, rfl⟩ := hw
    exact (he e hmem).2
  | false =>
    rw [hd] at hw
    simp only [Bool.false_eq_true, if_false, List.mem_append, List.mem_map,
      List.mem_filter] at hw
    rcases hw with ⟨e, ⟨hmem, -⟩, rfl⟩ | ⟨e, ⟨hmem, -⟩, rfl⟩
    · exact (he e hmem).2
    · exact (he e hmem).1

/-- Reachability along the graph's neighbor enumeration (the relation the
BFS of `shortest_path_for_centrality` explores). -/
def Reach (g : Graph) (s t : Nat) : Prop :=
  Relation.ReflTransGen (fun a b => b ∈ neighbors g a) s t

/-! ## Connectivity primitive (`conn_components.rs`) -/

/-- Model of `HashSet::insert`: add an element unless already present. -/
def hsInsert (l : List Nat) (x : Nat) : List Nat :=
  if x ∈ l then l else l ++ [x]

/-- Loop of `bfs_undirected`: the deque `stack` is popped from the front;
every not-yet-discovered neighbor is marked discovered, pushed to the back
and inserted into the component.  Fuel makes the recursion structural; the
callers supply provably sufficient fuel. -/
def bfsULoop (g : Graph) : Nat → List Nat → List Nat → List Nat → List Nat × List Nat
  | 0, comp, disc, _ => (comp, disc)
  | _ + 1, comp, disc, [] => (comp, disc)
  | fuel + 1, comp, disc, node :: stack =>
      let step := (neighbors g node).foldl
        (fun (acc : List Nat × List Nat × List Nat) succ =>
          if succ ∈ acc.2.1 then acc
          else (hsInsert acc.1 succ, succ :: acc.2.1, acc.2.2 ++ [succ]))
        (comp, disc, stack)
      bfsULoop g fuel step.1 step.2.1 step.2.2

/-- Model of `bfs_undirected(graph, start, discovered)`: the component set
starts as `{start}`, the deque as `[start]`; returns the component together
with the updated discovered map.  `start` itself is never marked here. -/
def bfs_undirected (g : Graph) (start : Nat) (discovered : List Nat) :
    List Nat × List Nat :=
  bfsULoop g (g.nodeBound + g.nodes.length + 1) [start] discovered [start]

/-- Model of `connected_components`: seeds in `node_identifiers` order; a
seed that `visit` reports as already discovered is skipped, otherwise it is
marked and expanded with `bfs_undirected`. -/
def connected_components (g : Graph) : List (List Nat) :=
  (g.nodes.foldl
    (fun (acc : List (List Nat) × List Nat) start =>
      if start ∈ acc.2 then acc
      else
        let r := bfs_undirected g start (start :: acc.2)
        (acc.1 ++ [r.1], r.2))
    ([], [])).1

/-- Model of `number_connected_components`: the same traversal counting
seeds instead of materializing component sets. -/
def number_connected_components (g : Graph) : Nat :=
  (g.nodes.foldl
    (fun (acc : Nat × List Nat) start =>
      if start ∈ acc.2 then acc
      else (acc.1 + 1, (bfs_undirected g start (start :: acc.2)).2))
    (0, [])).1

/-! ## Brandes betweenness centrality (`centrality.rs`) -/

/-- Result of `shortest_path_for_centrality`.  The hash maps are modelled
as partial functions on indices (`none` = key absent). -/
structure ShortestPathData where
  vertsSortedByDistance : List Nat
  predecessors : Nat → Option (List Nat)
  sigma : Nat → Option ℚ

/-- State of the BFS loop of `shortest_path_for_centrality`: `verts` holds
the popped vertices in discovery order (reversed on return), `Q` is the
FIFO queue. -/
structure BFSState where
  verts : List Nat
  preds : Nat → Option (List Nat)
  sigma : Nat → Option ℚ
  dist : Nat → Option Int
  Q : List Nat

/-- Distance lookup `distance[&x]`; the default is never consulted on
well-formed graphs (every key probed was inserted at initialization). -/
def dd (st : BFSState) (x : Nat) : Int := (st.dist x).getD (-1)

/-- Path-count lookup `sigma[&x]` with the analogous convention. -/
def sV (st : BFSState) (x : Nat) : ℚ := (st.sigma x).getD 0

/-- Predecessor-list lookup `predecessors[&x]` with the analogous
convention. -/
def pL (st : BFSState) (x : Nat) : List Nat := (st.preds x).getD []

/-- Body of `for w in graph.neighbors(v)`: the first `if` discovers `w`
(enqueue and set its distance), the second records the shortest-path edge
(`sigma[w] += sigma[v]`, `predecessors[w].push(v)`). -/
def relaxStep (v : Nat) (dv : Int) (st : BFSState) (w : Nat) : BFSState :=
  let st1 :=
    if dd st w < 0 then
      { st with Q := st.Q ++ [w],
                dist := fun x => if x = w then some (dv + 1) else st.dist x }
    else st
  if dd st1 w = dv + 1 then
    { st1 with
        sigma := fun x => if x = w then some (sV st1 w + sV st1 v) else st1.sigma x,
        preds := fun x => if x = w then some (pL st1 w ++ [v]) else st1.preds x }
  else st1

/-- Main BFS loop `while let Some(v) = Q.pop_front()`: pop, record in
`verts`, read `distance[&v]`, then process each neighbor.  Fuel makes the
recursion structural; `nodes.length + 1` is proved sufficient below. -/
def bfsLoop (g : Graph) : Nat → BFSState → BFSState
  | 0, st => st
  | fuel + 1, st =>
    match st.Q with
    | [] => st
    | v :: Q' =>
      let st' := { st with verts := st.verts ++ [v], Q := Q' }
      bfsLoop g fuel ((neighbors g v).foldl (relaxStep v (dd st' v)) st')

/-- Initial state: one entry per node identifier (`preds = []`,
`sigma = 0`, `distance = -1`), then the source overrides
(`sigma[s] = 1`, `distance[s] = 0`) and is enqueued. -/
def spcInit (g : Graph) (s : Nat) : BFSState where
  verts := []
  preds := fun x => if x ∈ g.nodes then some [] else none
  sigma := fun x => if x = s then some 1 else if x ∈ g.nodes then some 0 else none
  dist := fun x => if x = s then some 0 else if x ∈ g.nodes then some (-1) else none
  Q := [s]

/-- Model of `shortest_path_for_centrality`: run the BFS to completion and
reverse the discovery order so consumers iterate farthest-first. -/
def shortest_path_for_centrality (g : Graph) (s : Nat) : ShortestPathData :=
  let st := bfsLoop g (g.nodes.length + 1) (spcInit g s)
  { vertsSortedByDistance := st.verts.reverse
    predecessors := st.preds
    sigma := st.sigma }

/-- Per-source scratch values looked up on a `ShortestPathData`. -/
def sigAt (pc : ShortestPathData) (x : Nat) : ℚ := (pc.sigma x).getD 0

/-- Predecessor list looked up on a `ShortestPathData`. -/
def predAt (pc : ShortestPathData) (x : Nat) : List Nat := (pc.predecessors x).getD []

/-- The delta loop shared verbatim by `_accumulate_basic` and
`_accumulate_endpoints`: farthest-first over `verts_sorted_by_distance`,
`coeff = (1 + delta[w]) / sigma[w]`, and `delta[v] += sigma[v] * coeff`
for every recorded predecessor `v` of `w`. -/
def computeDelta (pc : ShortestPathData) : Nat → ℚ :=
  pc.vertsSortedByDistance.foldl
    (fun delta w =>
      let coeff := (1 + delta w) / sigAt pc w
      (predAt pc w).foldl
        (fun d v => fun x => if x = v then d v + sigAt pc v * coeff else d x)
        delta)
    (fun _ => 0)

/-- One slot of the shared buffer (`betweenness[i]`, `none` past the end). -/
def getSlot (b : List (Option ℚ)) (i : Nat) : Option ℚ := (b.get? i).getD none

/-- One locked write `betweenness[i] = betweenness[i].map(|x| x + c)`. -/
def addOne (p : Nat × ℚ) (b : List (Option ℚ)) : List (Option ℚ) :=
  b.set p.1 ((getSlot b p.1).map (fun x => x + p.2))

/-- A whole-array merge: the adds a source applies under the single write
lock, in program order. -/
def addList (l : List (Nat × ℚ)) (b : List (Option ℚ)) : List (Option ℚ) :=
  l.foldl (fun b p => addOne p b) b

/-- Model of `_accumulate_basic`: compute `delta`, then fold it into the
shared buffer at every visited index other than the source's. -/
def _accumulate_basic (pc : ShortestPathData) (is : Nat) (b : List (Option ℚ)) :
    List (Option ℚ) :=
  let delta := computeDelta pc
  pc.vertsSortedByDistance.foldl
    (fun b w => if w ≠ is then addOne (w, delta w) b else b) b

/-- Model of `_accumulate_endpoints`: additionally credit the source with
`verts_sorted_by_distance.len() - 1` and every other visited node with
`delta[w] + 1`. -/
def _accumulate_endpoints (pc : ShortestPathData) (is : Nat) (b : List (Option ℚ)) :
    List (Option ℚ) :=
  let delta := computeDelta pc
  let b := addOne (is, ((pc.vertsSortedByDistance.length - 1 : Nat) : ℚ)) b
  pc.vertsSortedByDistance.foldl
    (fun b w => if w ≠ is then addOne (w, delta w + 1) b else b) b

/-- Model of `_rescale`: the `do_scale`/`scale` selection followed by the
in-place `x.map(|y| y * scale)` pass. -/
def _rescale (betweenness : List (Option ℚ)) (node_count : Nat)
    (normalized directed endpoints : Bool) : List (Option ℚ) :=
  let ds : Bool × ℚ :=
    if normalized then
      if endpoints then
        if node_count < 2 then (false, 1)
        else (true, 1 / ((node_count * (node_count - 1) : Nat) : ℚ))
      else if node_count ≤ 2 then (false, 1)
      else (true, 1 / (((node_count - 1) * (node_count - 2) : Nat) : ℚ))
    else if !directed then (true, 1 / 2)
    else (false, 1)
  if ds.1 then betweenness.map (fun x => x.map (fun y => y * ds.2)) else betweenness

/-- Initialization of the shared buffer: `vec![None; max_index]`, then
`Some(0.0)` at every live node's index. -/
def initBetweenness (g : Graph) : List (Option ℚ) :=
  g.nodes.foldl (fun b i => b.set i (some 0)) (List.replicate g.nodeBound none)

/-- One source's contribution: shortest-path pass followed by the chosen
accumulator variant holding the write lock. -/
def sourceStep (g : Graph) (endpoints : Bool) (b : List (Option ℚ)) (s : Nat) :
    List (Option ℚ) :=
  let pc := shortest_path_for_centrality g s
  if endpoints then _accumulate_endpoints pc s b else _accumulate_basic pc s b

/-- Folding every source of `order` into the shared buffer.  Each source's
whole delta array is applied atomically under the write lock, so a parallel
execution is modelled by an arbitrary order (a permutation of the node
list); the sequential branch uses the node list itself. -/
def accumulateAll (g : Graph) (endpoints : Bool) (order : List Nat)
    (b : List (Option ℚ)) : List (Option ℚ) :=
  order.foldl (sourceStep g endpoints) b

/-- Model of `betweenness_centrality`.  `schedule` is the order in which
the worker pool of the parallel branch happens to commit its per-source
merges; the dispatch rule `node_count < parallel_threshold` selects the
sequential branch, which processes `node_identifiers` in order. -/
def betweenness_centrality (g : Graph) (endpoints normalized : Bool)
    (parallel_threshold : Nat) (schedule : List Nat) : List (Option ℚ) :=
  let b := initBetweenness g
  let b :=
    if g.nodes.length < parallel_threshold then accumulateAll g endpoints g.nodes b
    else accumulateAll g endpoints schedule b
  _rescale b g.nodes.length normalized g.directed endpoints

/-- Spec-side definition for the refinement comparison of claim C2: the
rescaling policy table of section 4.4 of the spec, one scale factor per
{normalized, endpoints, directedness, n} configuration (no-op rows are
factor 1), stated over rational arithmetic to compare with the code's
`_rescale`. -/
def rescaleFactorSpec (n : Nat) (normalized directed endpoints : Bool) : ℚ :=
  if normalized then
    if endpoints then
      if n < 2 then 1 else 1 / ((n : ℚ) * ((n : ℚ) - 1))
    else
      if n ≤ 2 then 1 else 1 / (((n : ℚ) - 1) * ((n : ℚ) - 2))
  else if directed then 1 else 1 / 2

/-! ## Shared-buffer slot lemmas -/

theorem getSlot_of_length_le {b : List (Option ℚ)} {i : Nat} (h : b.length ≤ i) :
    getSlot b i = none := by
  unfold getSlot
  rw [List.get?_eq_none.mpr h]
  rfl

theorem getSlot_set_self {b : List (Option ℚ)} {i : Nat} (h : i < b.length)
    (v : Option ℚ) : getSlot (b.set i v) i = v := by
  unfold getSlot
  rw [List.get?_set_eq_of_lt v h]
  rfl

theorem getSlot_set_ne {b : List (Option ℚ)} {i j : Nat} (h : i ≠ j) (v : Option ℚ) :
    getSlot (b.set i v) j = getSlot b j := by
  unfold getSlot
  rw [List.get?_set_ne v b h]

theorem length_addOne (p : Nat × ℚ) (b : List (Option ℚ)) :
    (addOne p b).length = b.length := by
  unfold addOne; exact List.length_set b p.1 _

theorem getSlot_addOne_self (i : Nat) (c : ℚ) (b : List (Option ℚ)) :
    getSlot (addOne (i, c) b) i = (getSlot b i).map (fun x => x + c) := by
  unfold addOne
  by_cases h : i < b.length
  · exact getSlot_set_self h _
  · push_neg at h
    rw [List.set_eq_of_length_le h, getSlot_of_length_le h]
    rfl

theorem getSlot_addOne_ne {i j : Nat} (h : i ≠ j) (c : ℚ) (b : List (Option ℚ)) :
    getSlot (addOne (i, c) b) j = getSlot b j := getSlot_set_ne h _

theorem isSome_getSlot_addOne (p : Nat × ℚ) (b : List (Option ℚ)) (j : Nat) :
    (getSlot (addOne p b) j).isSome = (getSlot b j).isSome := by
  obtain ⟨i, c⟩ := p
  by_cases h : i = j
  · subst h
    rw [getSlot_addOne_self]
    cases getSlot b i <;> rfl
  · rw [getSlot_addOne_ne h]

theorem getSlot_addOne (i : Nat) (c : ℚ) (b : List (Option ℚ)) (n : Nat) :
    getSlot (addOne (i, c) b) n
      = if n = i then (getSlot b n).map (fun x => x + c) else getSlot b n := by
  by_cases h : n = i
  · subst h
    rw [if_pos rfl, getSlot_addOne_self]
  · rw [if_neg h, getSlot_addOne_ne (fun he => h he.symm)]

theorem addOne_comm (p q : Nat × ℚ) (b : List (Option ℚ)) :
    addOne p (addOne q b) = addOne q (addOne p b) := by
  obtain ⟨i, c⟩ := p
  obtain ⟨j, d⟩ := q
  apply List.ext_get?
  intro n
  have hlen1 : (addOne (j, d) b).length = b.length := length_addOne _ _
  have hlen2 : (addOne (i, c) b).length = b.length := length_addOne _ _
  have key : getSlot (addOne (i, c) (addOne (j, d) b)) n
      = getSlot (addOne (j, d) (addOne (i, c) b)) n := by
    by_cases hi : n = i
    · subst hi
      by_cases hj : n = j
      · subst hj
        rw [getSlot_addOne_self, getSlot_addOne_self, getSlot_addOne_self,
          getSlot_addOne_self]
        cases getSlot b n with
        | none => rfl
        | some x =>
          show some (x + d + c) = some (x + c + d)
          congr 1
          ring
      · rw [getSlot_addOne_self, getSlot_addOne_ne (fun he => hj he.symm),
          getSlot_addOne_ne (fun he => hj he.symm), getSlot_addOne_self]
    · by_cases hj : n = j
      · subst hj
        rw [getSlot_addOne_ne (fun he => hi he.symm), getSlot_addOne_self,
          getSlot_addOne_self, getSlot_addOne_ne (fun he => hi he.symm)]
      · rw [getSlot_addOne_ne (fun he => hi he.symm),
          getSlot_addOne_ne (fun he => hj he.symm),
          getSlot_addOne_ne (fun he => hj he.symm),
          getSlot_addOne_ne (fun he => hi he.symm)]
  by_cases hn : n < b.length
  · have hget : ∀ b' : List (Option ℚ), b'.length = b.length →
        b'.get? n = some (getSlot b' n) := by
      intro b' hb'
      unfold getSlot
      cases hg : b'.get? n with
      | none => exact absurd (List.get?_eq_none.mp hg) (by omega)
      | some v => rfl
    rw [hget _ (by rw [length_addOne, hlen1]), hget _ (by rw [length_addOne, hlen2]), key]
  · push_neg at hn
    rw [List.get?_eq_none.mpr (by rw [length_addOne, hlen1]; exact hn),
      List.get?_eq_none.mpr (by rw [length_addOne, hlen2]; exact hn)]

theorem addList_nil (b : List (Option ℚ)) : addList [] b = b := rfl

theorem addList_cons (p : Nat × ℚ) (l : List (Nat × ℚ)) (b : List (Option ℚ)) :
    addList (p :: l) b = addList l (addOne p b) := rfl

theorem length_addList (l : List (Nat × ℚ)) (b : List (Option ℚ)) :
    (addList l b).length = b.length := by
  induction l generalizing b with
  | nil => rfl
  | cons p l ih => rw [addList_cons, ih, length_addOne]

theorem getSlot_addList_of_not_mem {l : List (Nat × ℚ)} {j : Nat}
    (h : j ∉ l.map Prod.fst) (b : List (Option ℚ)) :
    getSlot (addList l b) j = getSlot b j := by
  induction l generalizing b with
  | nil => rfl
  | cons p l ih =>
    simp only [List.map_cons, List.mem_cons, not_or] at h
    rw [addList_cons, ih h.2, getSlot_addOne_ne (fun he => h.1 he.symm) _]

theorem isSome_getSlot_addList (l : List (Nat × ℚ)) (b : List (Option ℚ)) (j : Nat) :
    (getSlot (addList l b) j).isSome = (getSlot b j).isSome := by
  induction l generalizing b with
  | nil => rfl
  | cons p l ih => rw [addList_cons, ih, isSome_getSlot_addOne]

theorem addOne_addList_comm (p : Nat × ℚ) (l : List (Nat × ℚ)) (b : List (Option ℚ)) :
    addOne p (addList l b) = addList l (addOne p b) := by
  induction l generalizing b with
  | nil => rfl
  | cons q l ih => rw [addList_cons, addList_cons, ih, addOne_comm]

theorem addList_comm (l₁ l₂ : List (Nat × ℚ)) (b : List (Option ℚ)) :
    addList l₁ (addList l₂ b) = addList l₂ (addList l₁ b) := by
  induction l₁ generalizing b with
  | nil => rfl
  | cons p l ih =>
    rw [addList_cons, addList_cons, addOne_addList_comm p l₂ b]
    exact ih (addOne p b)

theorem getSlot_addList_middle {l₁ l₂ : List (Nat × ℚ)} {j : Nat} (c : ℚ)
    (h₁ : j ∉ l₁.map Prod.fst) (h₂ : j ∉ l₂.map Prod.fst) (b : List (Option ℚ)) :
    getSlot (addList (l₁ ++ (j, c) :: l₂) b) j
      = (getSlot b j).map (fun x => x + c) := by
  induction l₁ generalizing b with
  | nil =>
    simp only [List.nil_append]
    rw [addList_cons, getSlot_addList_of_not_mem h₂, getSlot_addOne_self]
  | cons p l ih =>
    simp only [List.map_cons, List.mem_cons, not_or] at h₁
    simp only [List.cons_append]
    rw [addList_cons, ih h₁.2, getSlot_addOne_ne (fun he => h₁.1 he.symm)]

theorem getSlot_map_map (f : ℚ → ℚ) (b : List (Option ℚ)) (i : Nat) :
    getSlot (b.map (fun x => x.map f)) i = (getSlot b i).map f := by
  unfold getSlot
  rw [List.get?_map]
  cases b.get? i with
  | none => rfl
  | some o => cases o <;> rfl

theorem map_one_mul_self (o : Option ℚ) : o.map (fun y => y * 1) = o := by
  cases o with
  | none => rfl
  | some x => simp

theorem getSlot_rescale_factor (b : List (Option ℚ)) (n : Nat)
    (normalized directed endpoints : Bool) (i : Nat) :
    getSlot (_rescale b n normalized directed endpoints) i
      = (getSlot b i).map
          (fun y => y * rescaleFactorSpec n normalized directed endpoints) := by
  unfold _rescale rescaleFactorSpec
  cases normalized with
  | true =>
    cases endpoints with
    | true =>
      by_cases h2 : n < 2
      · simp only [if_pos h2, if_true]
        exact (map_one_mul_self _).symm
      · simp only [if_neg h2, if_true]
        rw [getSlot_map_map]
        have hn : 1 ≤ n := by omega
        have : ((n * (n - 1) : Nat) : ℚ) = (n : ℚ) * ((n : ℚ) - 1) := by
          push_cast [Nat.cast_sub hn]
          ring
        rw [this]
    | false =>
      by_cases h2 : n ≤ 2
      · simp only [if_pos h2, if_true, Bool.false_eq_true, if_false]
        exact (map_one_mul_self _).symm
      · simp only [if_neg h2, if_true, Bool.false_eq_true, if_false]
        rw [getSlot_map_map]
        have hn1 : 1 ≤ n := by omega
        have hn2 : 2 ≤ n := by omega
        have : (((n - 1) * (n - 2) : Nat) : ℚ) = ((n : ℚ) - 1) * ((n : ℚ) - 2) := by
          push_cast [Nat.cast_sub hn1, Nat.cast_sub hn2]
          ring
        rw [this]
  | false =>
    cases directed with
    | true =>
      simp only [Bool.false_eq_true, if_false, Bool.not_true, if_true]
      exact (map_one_mul_self _).symm
    | false =>
      simp only [Bool.false_eq_true, if_false, Bool.not_false, if_true]
      rw [getSlot_map_map]

/-- C2: `_rescale` multiplies every `Some` slot by exactly the factor of
the section 4.4 policy table (`1` on the no-op rows: normalized+endpoints
with `n < 2`, normalized without endpoints with `n ≤ 2`, unnormalized
directed), and `None` slots are untouched (the `map` preserves them). -/
theorem rescale_matches_policy_table (b : List (Option ℚ)) (n : Nat)
    (normalized directed endpoints : Bool) (i : Nat) :
    getSlot (_rescale b n normalized directed endpoints) i
      = (getSlot b i).map
          (fun y => y * rescaleFactorSpec n normalized directed endpoints) :=
  getSlot_rescale_factor b n normalized directed endpoints i

/-! ## Connectivity: claims C3, C8, C10 -/

theorem mem_hsInsert_of_mem {l : List Nat} {x y : Nat} (h : x ∈ l) :
    x ∈ hsInsert l y := by
  unfold hsInsert
  by_cases hy : y ∈ l
  · rwa [if_pos hy]
  · rw [if_neg hy]
    exact List.mem_append_left _ h

theorem uStep_comp_mono (g : Graph) (l : List Nat)
    (acc : List Nat × List Nat × List Nat) {x : Nat} (h : x ∈ acc.1) :
    x ∈ (l.foldl
      (fun (acc : List Nat × List Nat × List Nat) succ =>
        if succ ∈ acc.2.1 then acc
        else (hsInsert acc.1 succ, succ :: acc.2.1, acc.2.2 ++ [succ])) acc).1 := by
  induction l generalizing acc with
  | nil => exact h
  | cons s l ih =>
    rw [List.foldl_cons]
    apply ih
    by_cases hs : s ∈ acc.2.1
    · rw [if_pos hs]; exact h
    · rw [if_neg hs]; exact mem_hsInsert_of_mem h

theorem bfsULoop_comp_mono (g : Graph) :
    ∀ (fuel : Nat) (comp disc stack : List Nat) (x : Nat), x ∈ comp →
      x ∈ (bfsULoop g fuel comp disc stack).1 := by
  intro fuel
  induction fuel with
  | zero => intro comp disc stack x h; exact h
  | succ fuel ih =>
    intro comp disc stack x h
    cases stack with
    | nil => exact h
    | cons node rest =>
      unfold bfsULoop
      exact ih _ _ _ x (uStep_comp_mono g _ _ h)

theorem uStep_disc_bound (g : Graph) (node : Nat) (l : List Nat)
    (hl : ∀ s ∈ l, s ∈ neighbors g node)
    (acc : List Nat × List Nat × List Nat) {x : Nat}
    (h : x ∈ (l.foldl
      (fun (acc : List Nat × List Nat × List Nat) succ =>
        if succ ∈ acc.2.1 then acc
        else (hsInsert acc.1 succ, succ :: acc.2.1, acc.2.2 ++ [succ])) acc).2.1) :
    x ∈ acc.2.1 ∨ ∃ v, x ∈ neighbors g v := by
  induction l generalizing acc with
  | nil => exact Or.inl h
  | cons s l ih =>
    rw [List.foldl_cons] at h
    have hs' : ∀ t ∈ l, t ∈ neighbors g node := fun t ht => hl t (List.mem_cons_of_mem s ht)
    by_cases hs : s ∈ acc.2.1
    · rw [if_pos hs] at h
      exact ih hs' _ h
    · rw [if_neg hs] at h
      rcases ih hs' _ h with hmem | hex
      · rcases List.mem_cons.mp hmem with rfl | hold
        · exact Or.inr ⟨node, hl x (List.mem_cons_self x l)⟩
        · exact Or.inl hold
      · exact Or.inr hex

theorem bfsULoop_disc_bound (g : Graph) :
    ∀ (fuel : Nat) (comp disc stack : List Nat) (x : Nat),
      x ∈ (bfsULoop g fuel comp disc stack).2 →
      x ∈ disc ∨ ∃ v, x ∈ neighbors g v := by
  intro fuel
  induction fuel with
  | zero => intro comp disc stack x h; exact Or.inl h
  | succ fuel ih =>
    intro comp disc stack x h
    cases stack with
    | nil => exact Or.inl h
    | cons node rest =>
      unfold bfsULoop at h
      rcases ih _ _ _ x h with hmem | hex
      · exact uStep_disc_bound g node (neighbors g node) (fun s hs => hs) _ hmem
      · exact Or.inr hex

/-- C10: `bfs_undirected` always returns a component containing `start`
(it is inserted before the loop), but it only ever calls `visit` on
neighbor targets, so `start` joins the discovered map only if it was
already there or some traversed edge leads back to it; in particular an
isolated, unmarked `start` stays unmarked, which is why
`connected_components` and `number_connected_components` mark the seed
themselves before calling. -/
theorem bfs_undirected_start_component_not_marked (g : Graph) (start : Nat)
    (disc : List Nat) :
    start ∈ (bfs_undirected g start disc).1 ∧
    (∀ x, x ∈ (bfs_undirected g start disc).2 →
      x ∈ disc ∨ ∃ v, x ∈ neighbors g v) ∧
    (start ∉ disc → (∀ v, start ∉ neighbors g v) →
      start ∉ (bfs_undirected g start disc).2) := by
  refine ⟨?_, ?_, ?_⟩
  · exact bfsULoop_comp_mono g _ _ _ _ start (List.mem_singleton.mpr rfl)
  · intro x hx
    exact bfsULoop_disc_bound g _ _ _ _ x hx
  · intro hnd hiso hmem
    rcases bfsULoop_disc_bound g _ _ _ _ start hmem with h | ⟨v, hv⟩
    · exact hnd h
    · exact hiso v hv

/-- Witness for C10 on an isolated single node: the component contains the
start node while the discovered map stays empty of it. -/
theorem bfs_undirected_start_component_not_marked_witness :
    0 ∈ (bfs_undirected ⟨1, [0], [], true⟩ 0 []).1 ∧
    0 ∉ (bfs_undirected ⟨1, [0], [], true⟩ 0 []).2 := by
  refine ⟨(bfs_undirected_start_component_not_marked ⟨1, [0], [], true⟩ 0 []).1, ?_⟩
  exact (bfs_undirected_start_component_not_marked ⟨1, [0], [], true⟩ 0 []).2.2
    (by simp) (fun v => by simp [neighbors])

theorem conn_count_aux (g : Graph) :
    ∀ (l : List Nat) (comps : List (List Nat)) (disc : List Nat),
      l.foldl
        (fun (acc : Nat × List Nat) start =>
          if start ∈ acc.2 then acc
          else (acc.1 + 1, (bfs_undirected g start (start :: acc.2)).2))
        (comps.length, disc)
      = ((l.foldl
            (fun (acc : List (List Nat) × List Nat) start =>
              if start ∈ acc.2 then acc
              else
                let r := bfs_undirected g start (start :: acc.2)
                (acc.1 ++ [r.1], r.2))
            (comps, disc)).1.length,
         (l.foldl
            (fun (acc : List (List Nat) × List Nat) start =>
              if start ∈ acc.2 then acc
              else
                let r := bfs_undirected g start (start :: acc.2)
                (acc.1 ++ [r.1], r.2))
            (comps, disc)).2) := by
  intro l
  induction l with
  | nil => intro comps disc; rfl
  | cons a l ih =>
    intro comps disc
    rw [List.foldl_cons, List.foldl_cons]
    by_cases ha : a ∈ disc
    · have h1 : (if a ∈ ((comps.length, disc) : Nat × List Nat).2 then
          ((comps.length, disc) : Nat × List Nat)
          else (comps.length + 1, (bfs_undirected g a (a :: disc)).2))
          = (comps.length, disc) := if_pos ha
      have h2 : (if a ∈ ((comps, disc) : List (List Nat) × List Nat).2 then
          ((comps, disc) : List (List Nat) × List Nat)
          else
            let r := bfs_undirected g a (a :: disc)
            (comps ++ [r.1], r.2)) = (comps, disc) := if_pos ha
      rw [h1, h2]
      exact ih comps disc
    · have h1 : (if a ∈ ((comps.length, disc) : Nat × List Nat).2 then
          ((comps.length, disc) : Nat × List Nat)
          else (comps.length + 1, (bfs_undirected g a (a :: disc)).2))
          = (comps.length + 1, (bfs_undirected g a (a :: disc)).2) := if_neg ha
      have h2 : (if a ∈ ((comps, disc) : List (List Nat) × List Nat).2 then
          ((comps, disc) : List (List Nat) × List Nat)
          else
            let r := bfs_undirected g a (a :: disc)
            (comps ++ [r.1], r.2))
          = (comps ++ [(bfs_undirected g a (a :: disc)).1],
             (bfs_undirected g a (a :: disc)).2) := if_neg ha
      rw [h1, h2]
      have hlen : comps.length + 1 = (comps ++ [(bfs_undirected g a (a :: disc)).1]).length := by
        rw [List.length_append, List.length_singleton]
      rw [hlen]
      exact ih _ _

/-- C8: `number_connected_components` equals the length of the list
returned by `connected_components` — the two functions run the identical
seed loop, one counting, the other materializing the component sets. -/
theorem number_connected_components_eq_length (g : Graph) :
    number_connected_components g = (connected_components g).length := by
  unfold number_connected_components connected_components
  have h := conn_count_aux g g.nodes [] []
  rw [show (0 : Nat) = List.length ([] : List (List Nat)) from rfl, h]

/-- Concrete evaluation for C3: the directed graph with nodes `{0, 1}` and
the single edge `1 → 0`.  `neighbors` on a directed graph follows only
outgoing edges, so the seed `0` expands to nothing and the code returns
two singleton components even though an edge connects `0` and `1`. -/
theorem connected_components_directed_misses_back_edge :
    connected_components ⟨2, [0, 1], [(1, 0)], true⟩ = [[0], [1]] ∧
    (1, 0) ∈ (⟨2, [0, 1], [(1, 0)], true⟩ : Graph).edges ∧
    ∀ c ∈ connected_components ⟨2, [0, 1], [(1, 0)], true⟩, ¬(0 ∈ c ∧ 1 ∈ c) := by
  refine ⟨by decide, by decide, by decide⟩

/-! ## BFS loop invariants for `shortest_path_for_centrality` -/

theorem relaxStep_fresh {st : BFSState} {v w : Nat} {dv : Int} (h : dd st w < 0) :
    relaxStep v dv st w =
      { verts := st.verts
        preds := fun x => if x = w then some (pL st w ++ [v]) else st.preds x
        sigma := fun x => if x = w then some (sV st w + sV st v) else st.sigma x
        dist := fun x => if x = w then some (dv + 1) else st.dist x
        Q := st.Q ++ [w] } := by
  unfold relaxStep
  rw [if_pos h]
  have hdd : ∀ st1 : BFSState,
      st1.dist = (fun x => if x = w then some (dv + 1) else st.dist x) →
      dd st1 w = dv + 1 := by
    intro st1 h1
    simp [dd, h1]
  rw [if_pos (hdd _ rfl)]
  rfl

theorem relaxStep_update {st : BFSState} {v w : Nat} {dv : Int}
    (h1 : ¬dd st w < 0) (h2 : dd st w = dv + 1) :
    relaxStep v dv st w =
      { st with
          sigma := fun x => if x = w then some (sV st w + sV st v) else st.sigma x
          preds := fun x => if x = w then some (pL st w ++ [v]) else st.preds x } := by
  unfold relaxStep
  rw [if_neg h1, if_pos h2]

theorem relaxStep_skip {st : BFSState} {v w : Nat} {dv : Int}
    (h1 : ¬dd st w < 0) (h2 : dd st w ≠ dv + 1) :
    relaxStep v dv st w = st := by
  unfold relaxStep
  rw [if_neg h1, if_neg h2]

/-- Invariant of the BFS state in the middle of processing the neighbor
list of the most recently popped vertex `v`, whose stored distance is
`dv`. -/
structure IInv (g : Graph) (s v : Nat) (dv : Int) (st : BFSState) : Prop where
  domSigma : ∀ x, (st.sigma x).isSome ↔ x ∈ g.nodes
  domPreds : ∀ x, (st.preds x).isSome ↔ x ∈ g.nodes
  domDist : ∀ x, (st.dist x).isSome ↔ x ∈ g.nodes
  queued_iff : ∀ x, 0 ≤ dd st x ↔ (x ∈ st.verts ∨ x ∈ st.Q)
  nodup : (st.verts ++ st.Q).Nodup
  mem_nodes : ∀ x, (x ∈ st.verts ∨ x ∈ st.Q) → x ∈ g.nodes
  sorted_Q : (st.Q.map (dd st)).Sorted (· ≤ ·)
  popped_le_dv : ∀ p ∈ st.verts, dd st p ≤ dv
  Q_range : ∀ x ∈ st.Q, dv ≤ dd st x ∧ dd st x ≤ dv + 1
  v_mem : v ∈ st.verts
  dv_eq : dd st v = dv
  sigma_pos : ∀ x, (x ∈ st.verts ∨ x ∈ st.Q) → 1 ≤ sV st x
  sigma_nonneg : ∀ x, 0 ≤ sV st x
  dist_s : dd st s = 0
  sigma_s : st.sigma s = some 1
  preds_popped : ∀ u x, x ∈ pL st u → x ∈ st.verts
  flow : ∀ u, u ∈ g.nodes → u ≠ s → sV st u = ((pL st u).map (sV st)).sum
  reach : ∀ x, (x ∈ st.verts ∨ x ∈ st.Q) → Reach g s x
  closed_out : ∀ x ∈ st.verts, x ≠ v → ∀ y ∈ neighbors g x, 0 ≤ dd st y

theorem flow_preserved {st st2 : BFSState} {g : Graph} {s v w : Nat}
    (hσ : ∀ x, x ≠ w → st2.sigma x = st.sigma x)
    (hσw : sV st2 w = sV st w + sV st v)
    (hπ : ∀ x, x ≠ w → st2.preds x = st.preds x)
    (hπw : pL st2 w = pL st w ++ [v])
    (hpop : ∀ u x, x ∈ pL st u → x ∈ st.verts)
    (hwnv : w ∉ st.verts) (hv : v ∈ st.verts) (hwn : w ∈ g.nodes) (hws : w ≠ s)
    (hflow : ∀ u, u ∈ g.nodes → u ≠ s → sV st u = ((pL st u).map (sV st)).sum) :
    ∀ u, u ∈ g.nodes → u ≠ s → sV st2 u = ((pL st2 u).map (sV st2)).sum := by
  have hsne : ∀ x, x ≠ w → sV st2 x = sV st x := by
    intro x hx
    unfold sV
    rw [hσ x hx]
  have hpne : ∀ x, x ≠ w → pL st2 x = pL st x := by
    intro x hx
    unfold pL
    rw [hπ x hx]
  have hvne : v ≠ w := fun he => hwnv (he ▸ hv)
  intro u hu hus
  by_cases huw : u = w
  · subst huw
    rw [hσw, hπw, List.map_append, List.sum_append]
    have hmap : (pL st u).map (sV st2) = (pL st u).map (sV st) := by
      apply List.map_congr_left
      intro m hm
      exact hsne m (fun he => hwnv (he ▸ hpop u m hm))
    rw [hmap, ← hflow u hu hus]
    simp only [List.map_cons, List.map_nil, List.sum_cons, List.sum_nil]
    rw [hsne v hvne]
    ring
  · rw [hsne u huw, hpne u huw]
    have hmap : (pL st u).map (sV st2) = (pL st u).map (sV st) := by
      apply List.map_congr_left
      intro m hm
      exact hsne m (fun he => hwnv (he ▸ hpop u m hm))
    rw [hmap]
    exact hflow u hu hus

theorem IInv_update_abstract {g : Graph} {s v w : Nat} {dv : Int} {st st2 : BFSState}
    (hverts : st2.verts = st.verts) (hQ : st2.Q = st.Q) (hdist : st2.dist = st.dist)
    (hsig : st2.sigma = fun x => if x = w then some (sV st w + sV st v) else st.sigma x)
    (hpre : st2.preds = fun x => if x = w then some (pL st w ++ [v]) else st.preds x)
    (h : IInv g s v dv st) (h1 : ¬dd st w < 0) (h2 : dd st w = dv + 1) :
    IInv g s v dv st2 := by
  have hdv0 : 0 ≤ dv := by
    have t1 := (h.queued_iff v).mpr (Or.inl h.v_mem)
    have t2 := h.dv_eq
    omega
  have hw0 : 0 ≤ dd st w := by omega
  have hwQmem : w ∈ st.verts ∨ w ∈ st.Q := (h.queued_iff w).mp hw0
  have hwn : w ∈ g.nodes := h.mem_nodes w hwQmem
  have hwnv : w ∉ st.verts := by
    intro hmem
    have := h.popped_le_dv w hmem
    omega
  have hws : w ≠ s := by
    intro he
    rw [he, h.dist_s] at h2
    omega
  have hvw : v ≠ w := fun he => hwnv (he ▸ h.v_mem)
  have hddf : dd st2 = dd st := by
    funext x
    unfold dd
    rw [hdist]
  have hsV2 : ∀ x, x ≠ w → sV st2 x = sV st x := by
    intro x hx
    unfold sV
    rw [hsig]
    simp [hx]
  have hsV2w : sV st2 w = sV st w + sV st v := by
    unfold sV
    rw [hsig]
    simp only [if_pos rfl, Option.getD_some]
    rfl
  have hpL2 : ∀ x, x ≠ w → pL st2 x = pL st x := by
    intro x hx
    unfold pL
    rw [hpre]
    simp [hx]
  refine { domSigma := ?_, domPreds := ?_, domDist := ?_, queued_iff := ?_,
           nodup := ?_, mem_nodes := ?_, sorted_Q := ?_, popped_le_dv := ?_,
           Q_range := ?_, v_mem := ?_, dv_eq := ?_, sigma_pos := ?_,
           sigma_nonneg := ?_, dist_s := ?_, sigma_s := ?_, preds_popped := ?_,
           flow := ?_, reach := ?_, closed_out := ?_ }
  · intro x
    rw [hsig]
    by_cases hx : x = w
    · subst hx
      simp [hwn]
    · simp only [if_neg hx]
      exact h.domSigma x
  · intro x
    rw [hpre]
    by_cases hx : x = w
    · subst hx
      simp [hwn]
    · simp only [if_neg hx]
      exact h.domPreds x
  · intro x
    rw [hdist]
    exact h.domDist x
  · intro x
    rw [hddf, hverts, hQ]
    exact h.queued_iff x
  · rw [hverts, hQ]
    exact h.nodup
  · intro x hx
    rw [hverts, hQ] at hx
    exact h.mem_nodes x hx
  · rw [hQ, hddf]
    exact h.sorted_Q
  · intro p hp
    rw [hverts] at hp
    rw [hddf]
    exact h.popped_le_dv p hp
  · intro x hx
    rw [hQ] at hx
    rw [hddf]
    exact h.Q_range x hx
  · rw [hverts]
    exact h.v_mem
  · rw [hddf]
    exact h.dv_eq
  · intro x hx
    rw [hverts, hQ] at hx
    by_cases hxw : x = w
    · subst hxw
      rw [hsV2w]
      have t1 := h.sigma_pos x hwQmem
      have t2 := h.sigma_nonneg v
      linarith
    · rw [hsV2 x hxw]
      exact h.sigma_pos x hx
  · intro x
    by_cases hxw : x = w
    · subst hxw
      rw [hsV2w]
      have t1 := h.sigma_nonneg x
      have t2 := h.sigma_nonneg v
      linarith
    · rw [hsV2 x hxw]
      exact h.sigma_nonneg x
  · rw [hddf]
    exact h.dist_s
  · rw [hsig]
    have hsw : ¬s = w := fun he => hws he.symm
    simp only [if_neg hsw]
    exact h.sigma_s
  · intro u x hx
    rw [hverts]
    by_cases huw : u = w
    · subst huw
      unfold pL at hx
      rw [hpre] at hx
      simp only [if_pos rfl, Option.getD_some] at hx
      rcases List.mem_append.mp hx with hold | hnew
      · exact h.preds_popped u x hold
      · rw [List.mem_singleton.mp hnew]
        exact h.v_mem
    · rw [hpL2 u huw] at hx
      exact h.preds_popped u x hx
  · exact flow_preserved
      (by intro x hx; rw [hsig]; simp [hx])
      hsV2w
      (by intro x hx; rw [hpre]; simp [hx])
      (by unfold pL; rw [hpre]; simp [pL])
      h.preds_popped hwnv h.v_mem hwn hws h.flow
  · intro x hx
    rw [hverts, hQ] at hx
    exact h.reach x hx
  · intro x hx hxv y hy
    rw [hverts] at hx
    rw [hddf]
    exact h.closed_out x hx hxv y hy

theorem IInv_fresh_abstract {g : Graph} {s v w : Nat} {dv : Int} {st st2 : BFSState}
    (hverts : st2.verts = st.verts) (hQ : st2.Q = st.Q ++ [w])
    (hdist : st2.dist = fun x => if x = w then some (dv + 1) else st.dist x)
    (hsig : st2.sigma = fun x => if x = w then some (sV st w + sV st v) else st.sigma x)
    (hpre : st2.preds = fun x => if x = w then some (pL st w ++ [v]) else st.preds x)
    (h : IInv g s v dv st) (h1 : dd st w < 0) (hwn : w ∈ g.nodes)
    (hwv : w ∈ neighbors g v) : IInv g s v dv st2 := by
  have hdv0 : 0 ≤ dv := by
    have t1 := (h.queued_iff v).mpr (Or.inl h.v_mem)
    have t2 := h.dv_eq
    omega
  have hwmem : ¬(w ∈ st.verts ∨ w ∈ st.Q) := by
    intro hmem
    have := (h.queued_iff w).mpr hmem
    omega
  have hwnv : w ∉ st.verts := fun hm => hwmem (Or.inl hm)
  have hwnQ : w ∉ st.Q := fun hm => hwmem (Or.inr hm)
  have hws : w ≠ s := by
    intro he
    rw [he, h.dist_s] at h1
    omega
  have hvw : v ≠ w := fun he => hwnv (he ▸ h.v_mem)
  have hdd2w : dd st2 w = dv + 1 := by
    unfold dd
    rw [hdist]
    simp
  have hdd2ne : ∀ x, x ≠ w → dd st2 x = dd st x := by
    intro x hx
    unfold dd
    rw [hdist]
    simp [hx]
  have hsV2 : ∀ x, x ≠ w → sV st2 x = sV st x := by
    intro x hx
    unfold sV
    rw [hsig]
    simp [hx]
  have hsV2w : sV st2 w = sV st w + sV st v := by
    unfold sV
    rw [hsig]
    simp only [if_pos rfl, Option.getD_some]
    rfl
  have hpL2 : ∀ x, x ≠ w → pL st2 x = pL st x := by
    intro x hx
    unfold pL
    rw [hpre]
    simp [hx]
  refine { domSigma := ?_, domPreds := ?_, domDist := ?_, queued_iff := ?_,
           nodup := ?_, mem_nodes := ?_, sorted_Q := ?_, popped_le_dv := ?_,
           Q_range := ?_, v_mem := ?_, dv_eq := ?_, sigma_pos := ?_,
           sigma_nonneg := ?_, dist_s := ?_, sigma_s := ?_, preds_popped := ?_,
           flow := ?_, reach := ?_, closed_out := ?_ }
  · intro x
    rw [hsig]
    by_cases hx : x = w
    · subst hx
      simp [hwn]
    · simp only [if_neg hx]
      exact h.domSigma x
  · intro x
    rw [hpre]
    by_cases hx : x = w
    · subst hx
      simp [hwn]
    · simp only [if_neg hx]
      exact h.domPreds x
  · intro x
    rw [hdist]
    by_cases hx : x = w
    · subst hx
      simp [hwn]
    · simp only [if_neg hx]
      exact h.domDist x
  · intro x
    by_cases hx : x = w
    · subst hx
      rw [hdd2w]
      have hmem : x ∈ st2.verts ∨ x ∈ st2.Q := by
        rw [hQ]
        exact Or.inr (List.mem_append_right _ (List.mem_singleton.mpr rfl))
      exact iff_of_true (by omega) hmem
    · rw [hdd2ne x hx, hverts, hQ]
      have := h.queued_iff x
      simp only [List.mem_append, List.mem_singleton, hx, or_false]
      exact this
  · rw [hverts, hQ, ← List.append_assoc]
    refine List.Nodup.append h.nodup (List.nodup_singleton w) ?_
    intro a ha hb
    rw [List.mem_singleton.mp hb] at ha
    exact hwmem (List.mem_append.mp ha)
  · intro x hx
    rw [hverts, hQ] at hx
    rcases hx with hx | hx
    · exact h.mem_nodes x (Or.inl hx)
    · rcases List.mem_append.mp hx with hx | hx
      · exact h.mem_nodes x (Or.inr hx)
      · rw [List.mem_singleton.mp hx]
        exact hwn
  · rw [hQ, List.map_append]
    have hmap : st.Q.map (dd st2) = st.Q.map (dd st) := by
      apply List.map_congr_left
      intro x hx
      exact hdd2ne x (fun he => hwnQ (he ▸ hx))
    rw [hmap]
    unfold List.Sorted
    rw [List.pairwise_append]
    refine ⟨h.sorted_Q, List.pairwise_singleton _ _, ?_⟩
    intro a ha b hb
    simp only [List.map_cons, List.map_nil, List.mem_singleton] at hb
    rcases List.mem_map.mp ha with ⟨x, hx, rfl⟩
    rw [hb, hdd2w]
    exact (h.Q_range x hx).2
  · intro p hp
    rw [hverts] at hp
    rw [hdd2ne p (fun he => hwnv (he ▸ hp))]
    exact h.popped_le_dv p hp
  · intro x hx
    rw [hQ] at hx
    rcases List.mem_append.mp hx with hx | hx
    · rw [hdd2ne x (fun he => hwnQ (he ▸ hx))]
      exact h.Q_range x hx
    · rw [List.mem_singleton.mp hx, hdd2w]
      omega
  · rw [hverts]
    exact h.v_mem
  · rw [hdd2ne v hvw]
    exact h.dv_eq
  · intro x hx
    by_cases hxw : x = w
    · subst hxw
      rw [hsV2w]
      have t1 := h.sigma_pos v (Or.inl h.v_mem)
      have t2 := h.sigma_nonneg x
      linarith
    · rw [hsV2 x hxw]
      apply h.sigma_pos x
      rw [hverts, hQ] at hx
      rcases hx with hx | hx
      · exact Or.inl hx
      · rcases List.mem_append.mp hx with hx | hx
        · exact Or.inr hx
        · exact absurd (List.mem_singleton.mp hx) hxw
  · intro x
    by_cases hxw : x = w
    · subst hxw
      rw [hsV2w]
      have t1 := h.sigma_nonneg x
      have t2 := h.sigma_nonneg v
      linarith
    · rw [hsV2 x hxw]
      exact h.sigma_nonneg x
  · rw [hdd2ne s (fun he => hws he.symm)]
    exact h.dist_s
  · rw [hsig]
    have hsw : ¬s = w := fun he => hws he.symm
    simp only [if_neg hsw]
    exact h.sigma_s
  · intro u x hx
    rw [hverts]
    by_cases huw : u = w
    · subst huw
      unfold pL at hx
      rw [hpre] at hx
      simp only [if_pos rfl, Option.getD_some] at hx
      rcases List.mem_append.mp hx with hold | hnew
      · exact h.preds_popped u x hold
      · rw [List.mem_singleton.mp hnew]
        exact h.v_mem
    · rw [hpL2 u huw] at hx
      exact h.preds_popped u x hx
  · exact flow_preserved
      (by intro x hx; rw [hsig]; simp [hx])
      hsV2w
      (by intro x hx; rw [hpre]; simp [hx])
      (by unfold pL; rw [hpre]; simp [pL])
      h.preds_popped hwnv h.v_mem hwn hws h.flow
  · intro x hx
    rw [hverts, hQ] at hx
    rcases hx with hx | hx
    · exact h.reach x (Or.inl hx)
    · rcases List.mem_append.mp hx with hx | hx
      · exact h.reach x (Or.inr hx)
      · rw [List.mem_singleton.mp hx]
        exact Relation.ReflTransGen.tail (h.reach v (Or.inl h.v_mem)) hwv
  · intro x hx hxv y hy
    rw [hverts] at hx
    by_cases hyw : y = w
    · rw [hyw, hdd2w]
      omega
    · rw [hdd2ne y hyw]
      exact h.closed_out x hx hxv y hy

theorem relaxStep_IInv {g : Graph} {s v w : Nat} {dv : Int} {st : BFSState}
    (hg : g.WF) (hwv : w ∈ neighbors g v) (h : IInv g s v dv st) :
    IInv g s v dv (relaxStep v dv st w) := by
  by_cases h1 : dd st w < 0
  · rw [relaxStep_fresh h1]
    refine IInv_fresh_abstract ?_ ?_ ?_ ?_ ?_ h h1
      (mem_nodes_of_mem_neighbors hg hwv) hwv <;> rfl
  · by_cases h2 : dd st w = dv + 1
    · rw [relaxStep_update h1 h2]
      refine IInv_update_abstract ?_ ?_ ?_ ?_ ?_ h h1 h2 <;> rfl
    · rw [relaxStep_skip h1 h2]
      exact h

theorem foldl_relax_IInv {g : Graph} {s v : Nat} {dv : Int} (hg : g.WF)
    (ws : List Nat) (hws : ∀ w ∈ ws, w ∈ neighbors g v) {st : BFSState}
    (h : IInv g s v dv st) : IInv g s v dv (ws.foldl (relaxStep v dv) st) := by
  induction ws generalizing st with
  | nil => exact h
  | cons w ws ih =>
    rw [List.foldl_cons]
    exact ih (fun x hx => hws x (List.mem_cons_of_mem w hx))
      (relaxStep_IInv hg (hws w (List.mem_cons_self w ws)) h)

/-- Invariant of the BFS state between iterations of the main loop. -/
structure BInv (g : Graph) (s : Nat) (st : BFSState) : Prop where
  domSigma : ∀ x, (st.sigma x).isSome ↔ x ∈ g.nodes
  domPreds : ∀ x, (st.preds x).isSome ↔ x ∈ g.nodes
  domDist : ∀ x, (st.dist x).isSome ↔ x ∈ g.nodes
  queued_iff : ∀ x, 0 ≤ dd st x ↔ (x ∈ st.verts ∨ x ∈ st.Q)
  nodup : (st.verts ++ st.Q).Nodup
  mem_nodes : ∀ x, (x ∈ st.verts ∨ x ∈ st.Q) → x ∈ g.nodes
  sorted_Q : (st.Q.map (dd st)).Sorted (· ≤ ·)
  popped_le : ∀ p ∈ st.verts, ∀ x ∈ st.Q, dd st p ≤ dd st x
  bound_Q : ∀ x ∈ st.Q, ∀ y ∈ st.Q, dd st x ≤ dd st y + 1
  sigma_pos : ∀ x, (x ∈ st.verts ∨ x ∈ st.Q) → 1 ≤ sV st x
  sigma_nonneg : ∀ x, 0 ≤ sV st x
  dist_s : dd st s = 0
  sigma_s : st.sigma s = some 1
  preds_popped : ∀ u x, x ∈ pL st u → x ∈ st.verts
  flow : ∀ u, u ∈ g.nodes → u ≠ s → sV st u = ((pL st u).map (sV st)).sum
  reach : ∀ x, (x ∈ st.verts ∨ x ∈ st.Q) → Reach g s x
  closed : ∀ x ∈ st.verts, ∀ y ∈ neighbors g x, 0 ≤ dd st y

theorem IInv_of_pop {g : Graph} {s v : Nat} {Q' : List Nat} {st : BFSState}
    (h : BInv g s st) (hq : st.Q = v :: Q') :
    IInv g s v (dd st v) { st with verts := st.verts ++ [v], Q := Q' } := by
  have hvQ : v ∈ st.Q := by rw [hq]; exact List.mem_cons_self v Q'
  have hmemiff : ∀ x : Nat, (x ∈ st.verts ++ [v] ∨ x ∈ Q') ↔ (x ∈ st.verts ∨ x ∈ st.Q) := by
    intro x
    rw [hq]
    simp only [List.mem_append, List.mem_singleton, List.mem_cons]
    tauto
  refine { domSigma := h.domSigma, domPreds := h.domPreds, domDist := h.domDist,
           sigma_nonneg := h.sigma_nonneg, dist_s := h.dist_s, sigma_s := h.sigma_s,
           flow := h.flow, dv_eq := rfl, queued_iff := ?_, nodup := ?_,
           mem_nodes := ?_, sorted_Q := ?_, popped_le_dv := ?_, Q_range := ?_,
           v_mem := ?_, sigma_pos := ?_, preds_popped := ?_, reach := ?_,
           closed_out := ?_ }
  · intro x
    exact (h.queued_iff x).trans (hmemiff x).symm
  · rw [List.append_assoc]
    show (st.verts ++ (v :: Q')).Nodup
    rw [← hq]
    exact h.nodup
  · intro x hx
    exact h.mem_nodes x ((hmemiff x).mp hx)
  · have := h.sorted_Q
    rw [hq, List.map_cons] at this
    exact (List.pairwise_cons.mp this).2
  · intro p hp
    rcases List.mem_append.mp hp with hp | hp
    · exact h.popped_le p hp v hvQ
    · have hpv : p = v := List.mem_singleton.mp hp
      subst hpv
      exact le_rfl
  · intro x hx
    have hxQ : x ∈ st.Q := by rw [hq]; exact List.mem_cons_of_mem v hx
    constructor
    · have := h.sorted_Q
      rw [hq, List.map_cons] at this
      exact (List.pairwise_cons.mp this).1 (dd st x) (List.mem_map_of_mem (dd st) hx)
    · exact h.bound_Q x hxQ v hvQ
  · exact List.mem_append_right _ (List.mem_singleton.mpr rfl)
  · intro x hx
    exact h.sigma_pos x ((hmemiff x).mp hx)
  · intro u x hx
    exact List.mem_append_left _ (h.preds_popped u x hx)
  · intro x hx
    exact h.reach x ((hmemiff x).mp hx)
  · intro x hx hxv y hy
    rcases List.mem_append.mp hx with hx | hx
    · exact h.closed x hx y hy
    · exact absurd (List.mem_singleton.mp hx) hxv

theorem BInv_of_IInv {g : Graph} {s v : Nat} {dv : Int} {st : BFSState}
    (h : IInv g s v dv st) (hcv : ∀ y ∈ neighbors g v, 0 ≤ dd st y) :
    BInv g s st := by
  refine { domSigma := h.domSigma, domPreds := h.domPreds, domDist := h.domDist,
           queued_iff := h.queued_iff, nodup := h.nodup, mem_nodes := h.mem_nodes,
           sorted_Q := h.sorted_Q, sigma_pos := h.sigma_pos,
           sigma_nonneg := h.sigma_nonneg, dist_s := h.dist_s,
           sigma_s := h.sigma_s, preds_popped := h.preds_popped, flow := h.flow,
           reach := h.reach, popped_le := ?_, bound_Q := ?_, closed := ?_ }
  · intro p hp x hx
    exact le_trans (h.popped_le_dv p hp) (h.Q_range x hx).1
  · intro x hx y hy
    have t1 := (h.Q_range x hx).2
    have t2 := (h.Q_range y hy).1
    omega
  · intro x hx y hy
    by_cases hxv : x = v
    · rw [hxv] at hy
      exact hcv y hy
    · exact h.closed_out x hx hxv y hy

theorem dd_relax_nonneg {v : Nat} {dv : Int} (hdv : 0 ≤ dv) {st : BFSState}
    {y : Nat} (hy : 0 ≤ dd st y) (w : Nat) : 0 ≤ dd (relaxStep v dv st w) y := by
  by_cases h1 : dd st w < 0
  · rw [relaxStep_fresh h1]
    by_cases hyw : y = w
    · unfold dd
      simp only [hyw, if_true, eq_self_iff_true, ite_true, Option.getD_some]
      omega
    · unfold dd
      simp only [if_neg hyw]
      exact hy
  · by_cases h2 : dd st w = dv + 1
    · rw [relaxStep_update h1 h2]
      exact hy
    · rw [relaxStep_skip h1 h2]
      exact hy

theorem dd_relax_self {v : Nat} {dv : Int} (hdv : 0 ≤ dv) (st : BFSState)
    (w : Nat) : 0 ≤ dd (relaxStep v dv st w) w := by
  by_cases h1 : dd st w < 0
  · rw [relaxStep_fresh h1]
    unfold dd
    simp only [if_true, eq_self_iff_true, ite_true, Option.getD_some]
    omega
  · have hw0 : 0 ≤ dd st w := by omega
    exact dd_relax_nonneg hdv hw0 w

theorem foldl_relax_nonneg {v : Nat} {dv : Int} (hdv : 0 ≤ dv) (ws : List Nat)
    {st : BFSState} {y : Nat} (hy : 0 ≤ dd st y) :
    0 ≤ dd (ws.foldl (relaxStep v dv) st) y := by
  induction ws generalizing st with
  | nil => exact hy
  | cons w ws ih =>
    rw [List.foldl_cons]
    exact ih (dd_relax_nonneg hdv hy w)

theorem foldl_relax_closed {v : Nat} {dv : Int} (hdv : 0 ≤ dv) (ws : List Nat)
    (st : BFSState) : ∀ y ∈ ws, 0 ≤ dd (ws.foldl (relaxStep v dv) st) y := by
  induction ws generalizing st with
  | nil => intro y hy; exact absurd hy (List.not_mem_nil y)
  | cons w ws ih =>
    intro y hy
    rw [List.foldl_cons]
    rcases List.mem_cons.mp hy with rfl | hy
    · exact foldl_relax_nonneg hdv ws (dd_relax_self hdv st y)
    · exact ih (relaxStep v dv st w) y hy

theorem bfsLoop_succ_nil {g : Graph} {fuel : Nat} {st : BFSState}
    (h : st.Q = []) : bfsLoop g (fuel + 1) st = st := by
  obtain ⟨verts, preds, sigma, dist, Q⟩ := st
  simp only at h
  subst h
  rfl

theorem bfsLoop_succ_cons {g : Graph} {fuel : Nat} {st : BFSState} {v : Nat}
    {Q' : List Nat} (h : st.Q = v :: Q') :
    bfsLoop g (fuel + 1) st =
      bfsLoop g fuel ((neighbors g v).foldl
        (relaxStep v (dd { st with verts := st.verts ++ [v], Q := Q' } v))
        { st with verts := st.verts ++ [v], Q := Q' }) := by
  obtain ⟨verts, preds, sigma, dist, Q⟩ := st
  simp only at h
  subst h
  rfl

theorem bfsLoop_Inv {g : Graph} {s : Nat} (hg : g.WF) :
    ∀ (fuel : Nat) (st : BFSState), BInv g s st → BInv g s (bfsLoop g fuel st) := by
  intro fuel
  induction fuel with
  | zero => intro st h; exact h
  | succ fuel ih =>
    intro st h
    cases hq : st.Q with
    | nil =>
      rw [bfsLoop_succ_nil hq]
      exact h
    | cons v Q' =>
      rw [bfsLoop_succ_cons hq]
      have h' := IInv_of_pop h hq
      have hdv0 : 0 ≤ dd st v := (h.queued_iff v).mpr
        (Or.inr (by rw [hq]; exact List.mem_cons_self v Q'))
      have h2 := foldl_relax_IInv hg (neighbors g v) (fun w hw => hw) h'
      have hcl := foldl_relax_closed (v := v) hdv0 (neighbors g v)
        { st with verts := st.verts ++ [v], Q := Q' }
      exact ih _ (BInv_of_IInv h2 hcl)

/-- Number of nodes still undiscovered (distance `< 0`): the potential that
bounds the remaining BFS work. -/
def undisc (g : Graph) (st : BFSState) : Nat :=
  g.nodes.countP (fun x => decide (dd st x < 0))

theorem countP_flip {l : List Nat} {w : Nat} (hnd : l.Nodup) (hw : w ∈ l)
    {p q : Nat → Bool} (hpw : p w = true) (hqw : q w = false)
    (hagree : ∀ x ∈ l, x ≠ w → p x = q x) : l.countP p = l.countP q + 1 := by
  induction l with
  | nil => cases hw
  | cons a l ih =>
    rw [List.countP_cons, List.countP_cons]
    rcases List.mem_cons.mp hw with rfl | hw'
    · rw [hpw, hqw]
      have hwl : w ∉ l := (List.nodup_cons.mp hnd).1
      have heq : l.countP p = l.countP q := by
        apply List.countP_congr
        intro x hx
        have := hagree x (List.mem_cons_of_mem w hx) (fun he => hwl (he ▸ hx))
        rw [this]
      rw [heq]
      simp
    · have haw : a ≠ w := by
        intro he
        exact (List.nodup_cons.mp hnd).1 (he ▸ hw')
      rw [hagree a (List.mem_cons_self a l) haw]
      have := ih (List.nodup_cons.mp hnd).2 hw'
        (fun x hx hxw => hagree x (List.mem_cons_of_mem a hx) hxw)
      omega

theorem measure_fresh_abstract {g : Graph} {w : Nat} {dv : Int}
    {st st2 : BFSState} (hnd : g.nodes.Nodup) (hwn : w ∈ g.nodes)
    (hdv : 0 ≤ dv) (hQ2 : st2.Q = st.Q ++ [w])
    (hdist : st2.dist = fun x => if x = w then some (dv + 1) else st.dist x)
    (h1 : dd st w < 0) :
    st2.Q.length + undisc g st2 = st.Q.length + undisc g st := by
  have hlen : st2.Q.length = st.Q.length + 1 := by
    rw [hQ2]
    simp
  have hdd2w : dd st2 w = dv + 1 := by
    unfold dd
    rw [hdist]
    simp
  have hdd2ne : ∀ x, x ≠ w → dd st2 x = dd st x := by
    intro x hx
    unfold dd
    rw [hdist]
    simp [hx]
  have hcnt : g.nodes.countP (fun x => decide (dd st x < 0))
      = g.nodes.countP (fun x => decide (dd st2 x < 0)) + 1 := by
    apply countP_flip hnd hwn
    · exact decide_eq_true h1
    · rw [hdd2w]
      apply decide_eq_false
      omega
    · intro x hx hxw
      rw [hdd2ne x hxw]
  unfold undisc
  omega

theorem measure_relax {g : Graph} {v w : Nat} {dv : Int} {st : BFSState}
    (hnd : g.nodes.Nodup) (hwn : w ∈ g.nodes) (hdv : 0 ≤ dv) :
    (relaxStep v dv st w).Q.length + undisc g (relaxStep v dv st w)
      = st.Q.length + undisc g st := by
  by_cases h1 : dd st w < 0
  · rw [relaxStep_fresh h1]
    refine measure_fresh_abstract hnd hwn hdv ?_ ?_ h1 <;> rfl
  · by_cases h2 : dd st w = dv + 1
    · rw [relaxStep_update h1 h2]
      rfl
    · rw [relaxStep_skip h1 h2]

theorem measure_foldl {g : Graph} {v : Nat} {dv : Int} (hnd : g.nodes.Nodup)
    (hdv : 0 ≤ dv) (ws : List Nat) (hws : ∀ w ∈ ws, w ∈ g.nodes)
    (st : BFSState) :
    (ws.foldl (relaxStep v dv) st).Q.length + undisc g (ws.foldl (relaxStep v dv) st)
      = st.Q.length + undisc g st := by
  induction ws generalizing st with
  | nil => rfl
  | cons w ws ih =>
    rw [List.foldl_cons]
    rw [ih (fun x hx => hws x (List.mem_cons_of_mem w hx))]
    exact measure_relax hnd (hws w (List.mem_cons_self w ws)) hdv

theorem bfsLoop_terminates {g : Graph} {s : Nat} (hg : g.WF) :
    ∀ (fuel : Nat) (st : BFSState), BInv g s st →
      st.Q.length + undisc g st ≤ fuel → (bfsLoop g fuel st).Q = [] := by
  intro fuel
  induction fuel with
  | zero =>
    intro st h hle
    have : st.Q.length = 0 := by omega
    exact List.length_eq_zero.mp this
  | succ fuel ih =>
    intro st h hle
    cases hq : st.Q with
    | nil =>
      rw [bfsLoop_succ_nil hq]
      exact hq
    | cons v Q' =>
      rw [bfsLoop_succ_cons hq]
      have h' := IInv_of_pop h hq
      have hdv0 : 0 ≤ dd st v := (h.queued_iff v).mpr
        (Or.inr (by rw [hq]; exact List.mem_cons_self v Q'))
      have h2 := foldl_relax_IInv hg (neighbors g v) (fun w hw => hw) h'
      have hcl := foldl_relax_closed (v := v) hdv0 (neighbors g v)
        { st with verts := st.verts ++ [v], Q := Q' }
      apply ih _ (BInv_of_IInv h2 hcl)
      have hm := measure_foldl (v := v) hg.1 hdv0 (neighbors g v)
        (fun w hw => mem_nodes_of_mem_neighbors hg hw)
        { st with verts := st.verts ++ [v], Q := Q' }
      have hqlen : st.Q.length = Q'.length + 1 := by
        rw [hq]
        rfl
      have hundisc : undisc g { st with verts := st.verts ++ [v], Q := Q' }
          = undisc g st := rfl
      have hql2 : ({ st with verts := st.verts ++ [v], Q := Q' } : BFSState).Q.length
          = Q'.length := rfl
      omega

theorem BInv_init {g : Graph} {s : Nat} (hg : g.WF) (hs : s ∈ g.nodes) :
    BInv g s (spcInit g s) := by
  refine { domSigma := ?_, domPreds := ?_, domDist := ?_, queued_iff := ?_,
           nodup := ?_, mem_nodes := ?_, sorted_Q := ?_, popped_le := ?_,
           bound_Q := ?_, sigma_pos := ?_, sigma_nonneg := ?_, dist_s := ?_,
           sigma_s := ?_, preds_popped := ?_, flow := ?_, reach := ?_,
           closed := ?_ }
  · intro x
    show (if x = s then some (1 : ℚ) else if x ∈ g.nodes then some 0 else none).isSome
      ↔ x ∈ g.nodes
    by_cases hx : x = s
    · subst hx
      simp [hs]
    · by_cases hxn : x ∈ g.nodes <;> simp [hx, hxn]
  · intro x
    show (if x ∈ g.nodes then some ([] : List Nat) else none).isSome ↔ x ∈ g.nodes
    by_cases hxn : x ∈ g.nodes <;> simp [hxn]
  · intro x
    show (if x = s then some (0 : Int) else if x ∈ g.nodes then some (-1) else none).isSome
      ↔ x ∈ g.nodes
    by_cases hx : x = s
    · subst hx
      simp [hs]
    · by_cases hxn : x ∈ g.nodes <;> simp [hx, hxn]
  · intro x
    show 0 ≤ ((if x = s then some (0 : Int) else if x ∈ g.nodes then some (-1) else none).getD (-1))
      ↔ (x ∈ ([] : List Nat) ∨ x ∈ [s])
    by_cases hx : x = s
    · subst hx
      simp
    · by_cases hxn : x ∈ g.nodes <;> simp [hx, hxn]
  · show (([] : List Nat) ++ [s]).Nodup
    simp
  · intro x hx
    rcases hx with hx | hx
    · exact absurd hx (List.not_mem_nil x)
    · rw [List.mem_singleton.mp hx]
      exact hs
  · show (List.map (dd (spcInit g s)) [s]).Sorted (· ≤ ·)
    simp [List.Sorted]
  · intro p hp
    exact absurd hp (List.not_mem_nil p)
  · intro x hx y hy
    rw [List.mem_singleton.mp hx, List.mem_singleton.mp hy]
    omega
  · intro x hx
    rcases hx with hx | hx
    · exact absurd hx (List.not_mem_nil x)
    · rw [List.mem_singleton.mp hx]
      show (1 : ℚ) ≤ (if s = s then some (1 : ℚ) else if s ∈ g.nodes then some 0 else none).getD 0
      simp
  · intro x
    show (0 : ℚ) ≤ (if x = s then some (1 : ℚ) else if x ∈ g.nodes then some 0 else none).getD 0
    by_cases hx : x = s
    · simp [hx]
    · by_cases hxn : x ∈ g.nodes <;> simp [hx, hxn]
  · show (if s = s then some (0 : Int) else if s ∈ g.nodes then some (-1) else none).getD (-1) = 0
    simp
  · show (if s = s then some (1 : ℚ) else if s ∈ g.nodes then some 0 else none) = some 1
    simp
  · intro u x hx
    have : pL (spcInit g s) u = [] := by
      show ((if u ∈ g.nodes then some ([] : List Nat) else none).getD []) = []
      by_cases hun : u ∈ g.nodes <;> simp [hun]
    rw [this] at hx
    exact absurd hx (List.not_mem_nil x)
  · intro u hu hus
    have hp : pL (spcInit g s) u = [] := by
      show ((if u ∈ g.nodes then some ([] : List Nat) else none).getD []) = []
      simp [hu]
    have hsv : sV (spcInit g s) u = 0 := by
      show ((if u = s then some (1 : ℚ) else if u ∈ g.nodes then some 0 else none).getD 0) = 0
      simp [hus, hu]
    rw [hp, hsv]
    simp
  · intro x hx
    rcases hx with hx | hx
    · exact absurd hx (List.not_mem_nil x)
    · rw [List.mem_singleton.mp hx]
      exact Relation.ReflTransGen.refl
  · intro x hx
    exact absurd hx (List.not_mem_nil x)

/-- Final BFS state reached by `shortest_path_for_centrality`. -/
def spcFinal (g : Graph) (s : Nat) : BFSState :=
  bfsLoop g (g.nodes.length + 1) (spcInit g s)

theorem spc_eq_final (g : Graph) (s : Nat) :
    shortest_path_for_centrality g s =
      { vertsSortedByDistance := (spcFinal g s).verts.reverse
        predecessors := (spcFinal g s).preds
        sigma := (spcFinal g s).sigma } := rfl

theorem spcFinal_BInv {g : Graph} {s : Nat} (hg : g.WF) (hs : s ∈ g.nodes) :
    BInv g s (spcFinal g s) :=
  bfsLoop_Inv hg _ _ (BInv_init hg hs)

theorem spcFinal_Q_nil {g : Graph} {s : Nat} (hg : g.WF) (hs : s ∈ g.nodes) :
    (spcFinal g s).Q = [] := by
  apply bfsLoop_terminates hg _ _ (BInv_init hg hs)
  have h1 : (spcInit g s).Q.length = 1 := rfl
  have h2 : undisc g (spcInit g s) ≤ g.nodes.length := List.countP_le_length _
  omega

theorem spcFinal_mem_verts {g : Graph} {s : Nat} (hg : g.WF) (hs : s ∈ g.nodes) :
    ∀ x, x ∈ (spcFinal g s).verts ↔ Reach g s x := by
  have hinv := spcFinal_BInv hg hs
  have hq := spcFinal_Q_nil hg hs
  intro x
  constructor
  · intro hx
    exact hinv.reach x (Or.inl hx)
  · intro hr
    induction hr with
    | refl =>
      have h0 : 0 ≤ dd (spcFinal g s) s := by
        rw [hinv.dist_s]
      rcases (hinv.queued_iff s).mp h0 with h | h
      · exact h
      · rw [hq] at h
        exact absurd h (List.not_mem_nil s)
    | tail hab hbc ih =>
      have h0 := hinv.closed _ ih _ hbc
      rcases (hinv.queued_iff _).mp h0 with h | h
      · exact h
      · rw [hq] at h
        exact absurd h (List.not_mem_nil _)

theorem spcFinal_s_mem {g : Graph} {s : Nat} (hg : g.WF) (hs : s ∈ g.nodes) :
    s ∈ (spcFinal g s).verts :=
  (spcFinal_mem_verts hg hs s).mpr Relation.ReflTransGen.refl

theorem spcFinal_verts_nodup {g : Graph} {s : Nat} (hg : g.WF) (hs : s ∈ g.nodes) :
    (spcFinal g s).verts.Nodup := by
  have := (spcFinal_BInv hg hs).nodup
  exact (List.nodup_append.mp this).1

theorem spc_mem_verts {g : Graph} {s : Nat} (hg : g.WF) (hs : s ∈ g.nodes) :
    ∀ x, x ∈ (shortest_path_for_centrality g s).vertsSortedByDistance ↔ Reach g s x := by
  intro x
  rw [spc_eq_final, List.mem_reverse]
  exact spcFinal_mem_verts hg hs x

theorem spc_verts_nodup {g : Graph} {s : Nat} (hg : g.WF) (hs : s ∈ g.nodes) :
    (shortest_path_for_centrality g s).vertsSortedByDistance.Nodup := by
  rw [spc_eq_final]
  exact (List.nodup_reverse).mpr (spcFinal_verts_nodup hg hs)

theorem spc_s_mem_verts {g : Graph} {s : Nat} (hg : g.WF) (hs : s ∈ g.nodes) :
    s ∈ (shortest_path_for_centrality g s).vertsSortedByDistance := by
  rw [spc_eq_final, List.mem_reverse]
  exact spcFinal_s_mem hg hs

theorem spc_verts_sub_nodes {g : Graph} {s : Nat} (hg : g.WF) (hs : s ∈ g.nodes) :
    ∀ x ∈ (shortest_path_for_centrality g s).vertsSortedByDistance, x ∈ g.nodes := by
  intro x hx
  rw [spc_eq_final, List.mem_reverse] at hx
  exact (spcFinal_BInv hg hs).mem_nodes x (Or.inl hx)

/-- An example graph used by the concrete witnesses: the undirected path
`0 - 1 - 2` on three nodes. -/
def pathGraph3 : Graph := ⟨3, [0, 1, 2], [(0, 1), (1, 2)], false⟩

/-- C5: for a well-formed graph and a live source, the shortest-path data
satisfies `sigma[s] = 1`, and for every node `w ≠ s` reachable from `s`
the path count `sigma[w]` is the sum of `sigma[v]` over the recorded
predecessors of `w`. -/
theorem sigma_flow_invariant (g : Graph) (s : Nat) (hg : g.WF) (hs : s ∈ g.nodes) :
    (shortest_path_for_centrality g s).sigma s = some 1 ∧
    ∀ w, Reach g s w → w ≠ s →
      sigAt (shortest_path_for_centrality g s) w
        = ((predAt (shortest_path_for_centrality g s) w).map
            (sigAt (shortest_path_for_centrality g s))).sum := by
  have hinv := spcFinal_BInv hg hs
  constructor
  · exact hinv.sigma_s
  · intro w hr hws
    have hwv : w ∈ (spcFinal g s).verts := (spcFinal_mem_verts hg hs w).mpr hr
    have hwn : w ∈ g.nodes := hinv.mem_nodes w (Or.inl hwv)
    exact hinv.flow w hwn hws

/-- Witness for C5 on the path `0 - 1 - 2` with source `0` and `w = 2`. -/
theorem sigma_flow_invariant_witness :
    (shortest_path_for_centrality pathGraph3 0).sigma 0 = some 1 ∧
    sigAt (shortest_path_for_centrality pathGraph3 0) 2
      = ((predAt (shortest_path_for_centrality pathGraph3 0) 2).map
          (sigAt (shortest_path_for_centrality pathGraph3 0))).sum := by
  have h := sigma_flow_invariant pathGraph3 0 (by decide) (by decide)
  refine ⟨h.1, ?_⟩
  have hreach : Reach pathGraph3 0 2 :=
    Relation.ReflTransGen.tail
      (Relation.ReflTransGen.tail Relation.ReflTransGen.refl
        (by decide : (1 : Nat) ∈ neighbors pathGraph3 0))
      (by decide : (2 : Nat) ∈ neighbors pathGraph3 1)
  exact h.2 2 hreach (by decide)

/-- C9: every node in the visited sequence has a `sigma` entry with value
at least `1` (hence nonzero: the division `(1 + delta)/sigma[w]` in the
accumulators never divides by zero) and a predecessors entry (the
`predecessors.get(w).unwrap()` never panics). -/
theorem verts_sigma_pos_preds_present (g : Graph) (s : Nat)
    (hg : g.WF) (hs : s ∈ g.nodes) :
    ∀ w ∈ (shortest_path_for_centrality g s).vertsSortedByDistance,
      ((shortest_path_for_centrality g s).sigma w).isSome ∧
      1 ≤ sigAt (shortest_path_for_centrality g s) w ∧
      sigAt (shortest_path_for_centrality g s) w ≠ 0 ∧
      ((shortest_path_for_centrality g s).predecessors w).isSome := by
  intro w hw
  have hinv := spcFinal_BInv hg hs
  have hwv : w ∈ (spcFinal g s).verts := by
    rw [spc_eq_final, List.mem_reverse] at hw
    exact hw
  have hwn : w ∈ g.nodes := hinv.mem_nodes w (Or.inl hwv)
  have hpos : 1 ≤ sV (spcFinal g s) w := hinv.sigma_pos w (Or.inl hwv)
  refine ⟨(hinv.domSigma w).mpr hwn, hpos, ?_, (hinv.domPreds w).mpr hwn⟩
  intro h0
  have : sV (spcFinal g s) w = 0 := h0
  linarith

/-- Witness for C9 on the path `0 - 1 - 2` with source `0` and `w = 2`. -/
theorem verts_sigma_pos_preds_present_witness :
    ((shortest_path_for_centrality pathGraph3 0).sigma 2).isSome ∧
    1 ≤ sigAt (shortest_path_for_centrality pathGraph3 0) 2 ∧
    sigAt (shortest_path_for_centrality pathGraph3 0) 2 ≠ 0 ∧
    ((shortest_path_for_centrality pathGraph3 0).predecessors 2).isSome := by
  have h := verts_sigma_pos_preds_present pathGraph3 0 (by decide) (by decide)
  exact h 2 (by decide)

/-! ## Accumulator characterizations: claims C4, C7 -/

theorem foldl_guard_eq_addList (verts : List Nat) (is : Nat) (f : Nat → ℚ)
    (b : List (Option ℚ)) :
    verts.foldl (fun b w => if w ≠ is then addOne (w, f w) b else b) b
      = addList ((verts.filter (fun w => decide (w ≠ is))).map (fun w => (w, f w))) b := by
  induction verts generalizing b with
  | nil => rfl
  | cons w verts ih =>
    rw [List.foldl_cons]
    by_cases hw : w ≠ is
    · rw [if_pos hw, List.filter_cons_of_pos (by simpa using hw), List.map_cons,
        addList_cons, ih]
    · rw [if_neg hw, List.filter_cons_of_neg (by simpa using hw), ih]

/-- The index/amount pairs `_accumulate_basic` merges under the lock. -/
def basicWrites (pc : ShortestPathData) (is : Nat) : List (Nat × ℚ) :=
  (pc.vertsSortedByDistance.filter (fun w => decide (w ≠ is))).map
    (fun w => (w, computeDelta pc w))

/-- The index/amount pairs `_accumulate_endpoints` merges under the lock. -/
def endWrites (pc : ShortestPathData) (is : Nat) : List (Nat × ℚ) :=
  (is, ((pc.vertsSortedByDistance.length - 1 : Nat) : ℚ)) ::
    (pc.vertsSortedByDistance.filter (fun w => decide (w ≠ is))).map
      (fun w => (w, computeDelta pc w + 1))

theorem accumulate_basic_eq (pc : ShortestPathData) (is : Nat)
    (b : List (Option ℚ)) :
    _accumulate_basic pc is b = addList (basicWrites pc is) b := by
  unfold _accumulate_basic basicWrites
  exact foldl_guard_eq_addList _ is _ b

theorem accumulate_endpoints_eq (pc : ShortestPathData) (is : Nat)
    (b : List (Option ℚ)) :
    _accumulate_endpoints pc is b = addList (endWrites pc is) b := by
  unfold _accumulate_endpoints endWrites
  rw [addList_cons]
  exact foldl_guard_eq_addList _ is _ _

theorem map_fst_basicWrites (pc : ShortestPathData) (is : Nat) :
    (basicWrites pc is).map Prod.fst
      = pc.vertsSortedByDistance.filter (fun w => decide (w ≠ is)) := by
  unfold basicWrites
  rw [List.map_map]
  exact List.map_id _

theorem map_fst_endWrites_tail (pc : ShortestPathData) (is : Nat) (f : Nat → ℚ) :
    ((pc.vertsSortedByDistance.filter (fun w => decide (w ≠ is))).map
        (fun w => (w, f w))).map Prod.fst
      = pc.vertsSortedByDistance.filter (fun w => decide (w ≠ is)) := by
  rw [List.map_map]
  exact List.map_id _

/-- C7: a source pass of either accumulator leaves every slot whose index
is not in that source's visited sequence unchanged, and the basic variant
additionally never touches the source's own slot. -/
theorem accumulate_frame (g : Graph) (s : Nat) (hg : g.WF) (hs : s ∈ g.nodes)
    (b : List (Option ℚ)) (j : Nat) :
    (j ∉ (shortest_path_for_centrality g s).vertsSortedByDistance →
      getSlot (_accumulate_basic (shortest_path_for_centrality g s) s b) j
        = getSlot b j ∧
      getSlot (_accumulate_endpoints (shortest_path_for_centrality g s) s b) j
        = getSlot b j) ∧
    getSlot (_accumulate_basic (shortest_path_for_centrality g s) s b) s
      = getSlot b s := by
  constructor
  · intro hj
    constructor
    · rw [accumulate_basic_eq]
      apply getSlot_addList_of_not_mem
      rw [map_fst_basicWrites]
      intro hmem
      exact hj (List.mem_of_mem_filter hmem)
    · rw [accumulate_endpoints_eq]
      unfold endWrites
      rw [addList_cons]
      have hjs : j ≠ s := by
        intro he
        apply hj
        rw [he]
        exact spc_s_mem_verts hg hs
      rw [getSlot_addList_of_not_mem, getSlot_addOne_ne (fun he => hjs he.symm)]
      rw [map_fst_endWrites_tail]
      intro hmem
      exact hj (List.mem_of_mem_filter hmem)
  · rw [accumulate_basic_eq]
    apply getSlot_addList_of_not_mem
    rw [map_fst_basicWrites]
    intro hmem
    have := List.of_mem_filter hmem
    simp at this

/-- Witness for C7 on the path `0 - 1 - 2` with source `0` and the
untouched out-of-component slot `j = 5`. -/
theorem accumulate_frame_witness :
    getSlot (_accumulate_basic (shortest_path_for_centrality pathGraph3 0) 0
        [some 1, some 2, some 3]) 5
      = getSlot [some 1, some 2, some 3] 5 ∧
    getSlot (_accumulate_endpoints (shortest_path_for_centrality pathGraph3 0) 0
        [some 1, some 2, some 3]) 5
      = getSlot [some 1, some 2, some 3] 5 ∧
    getSlot (_accumulate_basic (shortest_path_for_centrality pathGraph3 0) 0
        [some 1, some 2, some 3]) 0
      = getSlot [some 1, some 2, some 3] 0 := by
  have h := accumulate_frame pathGraph3 0 (by decide) (by decide)
    [some 1, some 2, some 3] 5
  exact ⟨(h.1 (by decide)).1, (h.1 (by decide)).2, h.2⟩

theorem getSlot_addList_map_of_nodup {keys : List Nat} (hnd : keys.Nodup)
    (f : Nat → ℚ) {j : Nat} (hj : j ∈ keys) (b : List (Option ℚ)) :
    getSlot (addList (keys.map (fun w => (w, f w))) b) j
      = (getSlot b j).map (fun x => x + f j) := by
  obtain ⟨l₁, l₂, rfl⟩ := List.append_of_mem hj
  have hnd' := hnd
  rw [List.nodup_append] at hnd'
  have hj1 : j ∉ l₁ := fun hm =>
    hnd'.2.2 hm (List.mem_cons_self j l₂)
  have hj2 : j ∉ l₂ := (List.nodup_cons.mp hnd'.2.1).1
  rw [List.map_append, List.map_cons]
  apply getSlot_addList_middle
  · rw [List.map_map]
    rw [show ((fun p => p.1) ∘ fun w => (w, f w)) = id from rfl, List.map_id]
    exact hj1
  · rw [List.map_map]
    rw [show ((fun p => p.1) ∘ fun w => (w, f w)) = id from rfl, List.map_id]
    exact hj2

theorem length_filter_ne_of_nodup {l : List Nat} {s : Nat} (hnd : l.Nodup)
    (hs : s ∈ l) :
    l.length = (l.filter (fun w => decide (w ≠ s))).length + 1 := by
  induction l with
  | nil => cases hs
  | cons a l ih =>
    have hal : a ∉ l := (List.nodup_cons.mp hnd).1
    have hndl : l.Nodup := (List.nodup_cons.mp hnd).2
    rcases List.mem_cons.mp hs with rfl | hs'
    · rw [List.filter_cons_of_neg (by simp)]
      have hfl : l.filter (fun w => decide (w ≠ s)) = l := by
        apply List.filter_eq_self.mpr
        intro x hx
        simp only [decide_eq_true_eq]
        intro he
        exact hal (he ▸ hx)
      rw [hfl]
      simp
    · have has : a ≠ s := fun he => hal (he ▸ hs')
      rw [List.filter_cons_of_pos (by simpa using has)]
      simp only [List.length_cons]
      rw [ih hndl hs']

/-- C4: the endpoints variant uses the very same `delta` as the basic
variant (both run the identical reverse-order loop `computeDelta`); it then
adds, at the source's own slot, the number of vertices reached from the
source excluding the source itself (the visited sequence is exactly the
set of reachable vertices, and `verts.len() - 1` equals the count of
visited vertices other than `s`, hence `0` when nothing else is reached),
and at every other visited slot `delta[w] + 1` where the basic variant
adds `delta[w]`. -/
theorem accumulate_endpoints_spec (g : Graph) (s : Nat) (hg : g.WF)
    (hs : s ∈ g.nodes) (b : List (Option ℚ)) :
    (∀ x, x ∈ (shortest_path_for_centrality g s).vertsSortedByDistance ↔ Reach g s x) ∧
    getSlot (_accumulate_endpoints (shortest_path_for_centrality g s) s b) s
      = (getSlot b s).map (fun x => x +
          (((shortest_path_for_centrality g s).vertsSortedByDistance.length - 1 : Nat) : ℚ)) ∧
    (((shortest_path_for_centrality g s).vertsSortedByDistance.length - 1 : Nat) : ℚ)
      = (((shortest_path_for_centrality g s).vertsSortedByDistance.filter
          (fun w => decide (w ≠ s))).length : ℚ) ∧
    ∀ w ∈ (shortest_path_for_centrality g s).vertsSortedByDistance, w ≠ s →
      getSlot (_accumulate_endpoints (shortest_path_for_centrality g s) s b) w
        = (getSlot b w).map
            (fun x => x + (computeDelta (shortest_path_for_centrality g s) w + 1)) ∧
      getSlot (_accumulate_basic (shortest_path_for_centrality g s) s b) w
        = (getSlot b w).map (fun x => x + computeDelta (shortest_path_for_centrality g s) w) := by
  have hnd := spc_verts_nodup hg hs
  have hsv := spc_s_mem_verts hg hs
  have hndf : ((shortest_path_for_centrality g s).vertsSortedByDistance.filter
      (fun w => decide (w ≠ s))).Nodup := List.Nodup.filter _ hnd
  refine ⟨spc_mem_verts hg hs, ?_, ?_, ?_⟩
  · rw [accumulate_endpoints_eq]
    unfold endWrites
    rw [addList_cons, getSlot_addList_of_not_mem, getSlot_addOne_self]
    rw [map_fst_endWrites_tail]
    intro hmem
    have := List.of_mem_filter hmem
    simp at this
  · rw [length_filter_ne_of_nodup hnd hsv]
    simp
  · intro w hw hws
    have hwf : w ∈ (shortest_path_for_centrality g s).vertsSortedByDistance.filter
        (fun w => decide (w ≠ s)) := by
      apply List.mem_filter.mpr
      exact ⟨hw, by simpa using hws⟩
    constructor
    · rw [accumulate_endpoints_eq]
      unfold endWrites
      rw [addList_cons, getSlot_addList_map_of_nodup hndf _ hwf,
        getSlot_addOne_ne (fun he => hws he.symm)]
    · rw [accumulate_basic_eq]
      unfold basicWrites
      rw [getSlot_addList_map_of_nodup hndf _ hwf]

/-- Witness for C4 on the path `0 - 1 - 2` with source `0`, buffer
`[some 0, some 0, some 0]` and the visited slot `w = 1`. -/
theorem accumulate_endpoints_spec_witness :
    getSlot (_accumulate_endpoints (shortest_path_for_centrality pathGraph3 0) 0
        [some 0, some 0, some 0]) 0
      = (getSlot [some 0, some 0, some 0] 0).map (fun x => x +
          (((shortest_path_for_centrality pathGraph3 0).vertsSortedByDistance.length - 1 : Nat) : ℚ)) ∧
    getSlot (_accumulate_endpoints (shortest_path_for_centrality pathGraph3 0) 0
        [some 0, some 0, some 0]) 1
      = (getSlot [some 0, some 0, some 0] 1).map
          (fun x => x + (computeDelta (shortest_path_for_centrality pathGraph3 0) 1 + 1)) ∧
    getSlot (_accumulate_basic (shortest_path_for_centrality pathGraph3 0) 0
        [some 0, some 0, some 0]) 1
      = (getSlot [some 0, some 0, some 0] 1).map
          (fun x => x + computeDelta (shortest_path_for_centrality pathGraph3 0) 1) := by
  have h := accumulate_endpoints_spec pathGraph3 0 (by decide) (by decide)
    [some 0, some 0, some 0]
  exact ⟨h.2.1, (h.2.2.2 1 (by decide) (by decide)).1,
    (h.2.2.2 1 (by decide) (by decide)).2⟩

/-! ## Shape and scheduling: claims C6, C1 -/

theorem length_foldl_set (l : List Nat) (b : List (Option ℚ)) :
    (l.foldl (fun b i => b.set i (some (0 : ℚ))) b).length = b.length := by
  induction l generalizing b with
  | nil => rfl
  | cons a l ih =>
    rw [List.foldl_cons, ih, List.length_set]

theorem getSlot_foldl_set (l : List Nat) (b : List (Option ℚ)) (j : Nat) :
    getSlot (l.foldl (fun b i => b.set i (some (0 : ℚ))) b) j
      = if j ∈ l ∧ j < b.length then some 0 else getSlot b j := by
  induction l generalizing b with
  | nil => simp
  | cons a l ih =>
    rw [List.foldl_cons, ih, List.length_set]
    by_cases hjl : j ∈ l
    · by_cases hlt : j < b.length
      · rw [if_pos ⟨hjl, hlt⟩, if_pos ⟨List.mem_cons_of_mem a hjl, hlt⟩]
      · rw [if_neg (by tauto), if_neg (by tauto)]
        by_cases hja : j = a
        · subst hja
          rw [List.set_eq_of_length_le (by omega)]
        · rw [getSlot_set_ne (fun he => hja he.symm)]
    · rw [if_neg (by tauto)]
      by_cases hja : j = a
      · subst hja
        by_cases hlt : j < b.length
        · rw [getSlot_set_self hlt, if_pos ⟨List.mem_cons_self j l, hlt⟩]
        · rw [List.set_eq_of_length_le (by omega), if_neg (by tauto)]
      · rw [getSlot_set_ne (fun he => hja he.symm), if_neg (by
          intro hcon
          rcases List.mem_cons.mp hcon.1 with he | hm
          · exact hja he
          · exact hjl hm)]

theorem getSlot_replicate (n i : Nat) :
    getSlot (List.replicate n (none : Option ℚ)) i = none := by
  unfold getSlot
  cases h : (List.replicate n (none : Option ℚ)).get? i with
  | none => rfl
  | some v =>
    have hv : v ∈ List.replicate n (none : Option ℚ) := List.get?_mem h
    rw [List.eq_of_mem_replicate hv]
    rfl

theorem length_initBetweenness (g : Graph) :
    (initBetweenness g).length = g.nodeBound := by
  unfold initBetweenness
  rw [length_foldl_set, List.length_replicate]

theorem getSlot_initBetweenness {g : Graph} (hg : g.WF) (i : Nat) :
    getSlot (initBetweenness g) i = if i ∈ g.nodes then some 0 else none := by
  unfold initBetweenness
  rw [getSlot_foldl_set, List.length_replicate]
  by_cases him : i ∈ g.nodes
  · rw [if_pos ⟨him, hg.2.1 i him⟩, if_pos him]
  · rw [if_neg (by tauto), if_neg him, getSlot_replicate]

/-- The whole-array merge a single source applies under the write lock. -/
def sourceWrites (g : Graph) (e : Bool) (s : Nat) : List (Nat × ℚ) :=
  if e then endWrites (shortest_path_for_centrality g s) s
  else basicWrites (shortest_path_for_centrality g s) s

theorem sourceStep_eq_addList (g : Graph) (e : Bool) (b : List (Option ℚ))
    (s : Nat) : sourceStep g e b s = addList (sourceWrites g e s) b := by
  unfold sourceStep sourceWrites
  cases e with
  | true =>
    rw [if_pos rfl, if_pos rfl]
    exact accumulate_endpoints_eq _ _ _
  | false =>
    rw [if_neg (by simp), if_neg (by simp)]
    exact accumulate_basic_eq _ _ _

theorem isSome_sourceStep (g : Graph) (e : Bool) (b : List (Option ℚ))
    (s j : Nat) :
    (getSlot (sourceStep g e b s) j).isSome = (getSlot b j).isSome := by
  rw [sourceStep_eq_addList, isSome_getSlot_addList]

theorem length_sourceStep (g : Graph) (e : Bool) (b : List (Option ℚ)) (s : Nat) :
    (sourceStep g e b s).length = b.length := by
  rw [sourceStep_eq_addList, length_addList]

theorem isSome_accumulateAll (g : Graph) (e : Bool) (order : List Nat) :
    ∀ (b : List (Option ℚ)) (j : Nat),
      (getSlot (accumulateAll g e order b) j).isSome = (getSlot b j).isSome := by
  induction order with
  | nil => intro b j; rfl
  | cons s order ih =>
    intro b j
    unfold accumulateAll at ih ⊢
    rw [List.foldl_cons, ih, isSome_sourceStep]

theorem length_accumulateAll (g : Graph) (e : Bool) (order : List Nat) :
    ∀ b : List (Option ℚ), (accumulateAll g e order b).length = b.length := by
  induction order with
  | nil => intro b; rfl
  | cons s order ih =>
    intro b
    unfold accumulateAll at ih ⊢
    rw [List.foldl_cons, ih, length_sourceStep]

theorem length_rescale (b : List (Option ℚ)) (n : Nat)
    (normalized directed endpoints : Bool) :
    (_rescale b n normalized directed endpoints).length = b.length := by
  unfold _rescale
  by_cases h1 : normalized = true <;> by_cases h2 : endpoints = true <;>
    by_cases h3 : n < 2 <;> by_cases h4 : n ≤ 2 <;>
    by_cases h5 : directed = true <;> simp [h1, h2, h3, h4, h5]

theorem betweenness_centrality_eq (g : Graph) (e n : Bool) (t : Nat)
    (sched : List Nat) :
    betweenness_centrality g e n t sched
      = _rescale (accumulateAll g e
          (if g.nodes.length < t then g.nodes else sched) (initBetweenness g))
          g.nodes.length n g.directed e := by
  unfold betweenness_centrality
  by_cases hc : g.nodes.length < t
  · simp only [if_pos hc]
  · simp only [if_neg hc]

/-- C6: for any well-formed graph, flags, threshold and merge schedule,
`betweenness_centrality` returns a buffer of length `node_bound` in which
slot `i` holds a value exactly when index `i` is a live node: the shape is
set up by the initialization and every later write is an `Option::map`,
which preserves `Some`/`None` slot by slot, as does `_rescale`. -/
theorem betweenness_shape (g : Graph) (endpoints normalized : Bool)
    (parallel_threshold : Nat) (schedule : List Nat) (hg : g.WF) :
    (betweenness_centrality g endpoints normalized parallel_threshold schedule).length
      = g.nodeBound ∧
    ∀ i, (getSlot (betweenness_centrality g endpoints normalized
        parallel_threshold schedule) i).isSome ↔ i ∈ g.nodes := by
  rw [betweenness_centrality_eq]
  constructor
  · rw [length_rescale, length_accumulateAll, length_initBetweenness]
  · intro i
    rw [getSlot_rescale_factor]
    have h1 : ∀ o : Option ℚ, (o.map (fun y => y *
        rescaleFactorSpec g.nodes.length normalized g.directed endpoints)).isSome
        = o.isSome := by
      intro o
      cases o <;> rfl
    rw [h1, isSome_accumulateAll, getSlot_initBetweenness hg]
    by_cases him : i ∈ g.nodes <;> simp [him]

/-- Witness for C6 on the path `0 - 1 - 2`. -/
theorem betweenness_shape_witness :
    (betweenness_centrality pathGraph3 true true 10 []).length
      = pathGraph3.nodeBound ∧
    ((getSlot (betweenness_centrality pathGraph3 true true 10 []) 1).isSome
      ↔ 1 ∈ pathGraph3.nodes) := by
  have h := betweenness_shape pathGraph3 true true 10 [] (by decide)
  exact ⟨h.1, h.2 1⟩

theorem sourceStep_comm (g : Graph) (e : Bool) (b : List (Option ℚ))
    (s₁ s₂ : Nat) :
    sourceStep g e (sourceStep g e b s₁) s₂
      = sourceStep g e (sourceStep g e b s₂) s₁ := by
  rw [sourceStep_eq_addList, sourceStep_eq_addList, sourceStep_eq_addList,
    sourceStep_eq_addList, addList_comm]

theorem foldl_comm_perm {α β : Type} (f : β → α → β)
    (hc : ∀ b a₁ a₂, f (f b a₁) a₂ = f (f b a₂) a₁) {l₁ l₂ : List α}
    (hp : l₁.Perm l₂) : ∀ b, l₁.foldl f b = l₂.foldl f b := by
  induction hp with
  | nil => intro b; rfl
  | cons x _ ih =>
    intro b
    rw [List.foldl_cons, List.foldl_cons, ih]
  | swap x y l =>
    intro b
    rw [List.foldl_cons, List.foldl_cons, List.foldl_cons, List.foldl_cons, hc]
  | trans _ _ ih₁ ih₂ =>
    intro b
    rw [ih₁, ih₂]

/-- C1: with exact (rational) arithmetic the sequential branch (threshold
strictly above the node count) and the parallel branch (threshold at most
the node count), the latter committing its per-source whole-array merges
in an arbitrary schedule that is a permutation of the node list, produce
identical buffers: every source's merge is a list of per-slot additions,
and such merges commute. -/
theorem parallel_agrees_sequential (g : Graph) (endpoints normalized : Bool)
    (tSeq tPar : Nat) (schedSeq schedPar : List Nat)
    (hseq : g.nodes.length < tSeq) (hpar : tPar ≤ g.nodes.length)
    (hperm : schedPar.Perm g.nodes) :
    betweenness_centrality g endpoints normalized tSeq schedSeq
      = betweenness_centrality g endpoints normalized tPar schedPar := by
  rw [betweenness_centrality_eq, betweenness_centrality_eq,
    if_pos hseq, if_neg (by omega)]
  congr 1
  unfold accumulateAll
  exact foldl_comm_perm _ (sourceStep_comm g endpoints) hperm.symm _

/-- Witness for C1 on the path `0 - 1 - 2`: sequential threshold 10
against parallel threshold 2 with schedule `[2, 0, 1]`. -/
theorem parallel_agrees_sequential_witness :
    betweenness_centrality pathGraph3 false false 10 []
      = betweenness_centrality pathGraph3 false false 2 [2, 0, 1] :=
  parallel_agrees_sequential pathGraph3 false false 10 2 [] [2, 0, 1]
    (by decide) (by decide) (by decide)
